import Mathlib

/-!
Verification of the PA3 quadtree implementation (src/qtree.cpp).

The C++ code is shallowly embedded: `unsigned int` arithmetic is modelled as
natural-number arithmetic reduced modulo 2^32, heap node pointers become an
inductive tree with optional children, and the source image is a function from
coordinates to pixels.
-/

/-- 2^32, the modulus of C++ `unsigned int` arithmetic. -/
def u32 : Nat := 4294967296

/-- Unsigned-int addition: wraps modulo 2^32. -/
def uadd (x y : Nat) : Nat := (x + y) % u32

/-- Unsigned-int subtraction (two's complement): wraps modulo 2^32. -/
def usub (x y : Nat) : Nat := (x + (u32 - y % u32)) % u32

/-- Unsigned-int multiplication: wraps modulo 2^32. -/
def umul (x y : Nat) : Nat := (x * y) % u32

/-- Modelled from the spec: the external color type (RGBAPixel.h is not under
src/).  Per the spec's external-interface section it exposes component channels
R, G, B and A; all four channels are modelled as natural numbers (alpha scaled
to 0..255). -/
structure RGBAPixel where
  r : Nat
  g : Nat
  b : Nat
  a : Nat
deriving DecidableEq, Repr

/-- Modelled from the spec: a default-constructed RGBAPixel from the external
scaffolding (white, fully opaque). -/
def defaultPix : RGBAPixel := ⟨255, 255, 255, 255⟩

/-- Absolute difference of naturals. -/
def ndiff (x y : Nat) : Nat := (x - y) + (y - x)

/-- Modelled from the spec: RGBAPixel::distanceTo, the external color-distance
metric, required by the spec only to be symmetric, non-negative and zero iff
equal; modelled as the L1 distance on the four components (a natural number,
which embeds into the spec's real-valued metric; a non-integer pruning
tolerance behaves like its floor). -/
def RGBAPixel.distanceTo (p q : RGBAPixel) : Nat :=
  ndiff p.r q.r + ndiff p.g q.g + ndiff p.b q.b + ndiff p.a q.a

mutual
/-- A heap `Node` from qtree.h: a rectangle (inclusive corners), an average
color, and four child pointers. -/
inductive Node where
  | mk (upLeft lowRight : Nat × Nat) (avg : RGBAPixel) (nw ne sw se : ONode)
  deriving DecidableEq
/-- A possibly-null `Node*`. -/
inductive ONode where
  | none
  | some (n : Node)
  deriving DecidableEq
end

namespace Node

def upLeft : Node → Nat × Nat
  | .mk ul _ _ _ _ _ _ => ul

def lowRight : Node → Nat × Nat
  | .mk _ lr _ _ _ _ _ => lr

def avg : Node → RGBAPixel
  | .mk _ _ c _ _ _ _ => c

def nw : Node → ONode
  | .mk _ _ _ c _ _ _ => c

def ne : Node → ONode
  | .mk _ _ _ _ c _ _ => c

def sw : Node → ONode
  | .mk _ _ _ _ _ c _ => c

def se : Node → ONode
  | .mk _ _ _ _ _ _ c => c

end Node

/-- Whether a child pointer is null. -/
def ONode.isNull : ONode → Bool
  | .none => true
  | .some _ => false

/-- QTree::IsLeaf: a non-null node all four of whose children are null. -/
def isLeafN (n : Node) : Bool :=
  n.nw.isNull && n.ne.isNull && n.sw.isNull && n.se.isNull

/-- QTree::CalculateAverageColor, lambda addColor: accumulates, in `unsigned
int` arithmetic, the area-weighted channel sums and the total pixel count of
one (possibly null) child. -/
def addColor (acc : Nat × Nat × Nat × Nat) (o : ONode) : Nat × Nat × Nat × Nat :=
  match o with
  | .none => acc
  | .some n =>
      let nodePixelCount :=
        umul (uadd (usub n.lowRight.1 n.upLeft.1) 1) (uadd (usub n.lowRight.2 n.upLeft.2) 1)
      (uadd acc.1 (umul n.avg.r nodePixelCount),
       uadd acc.2.1 (umul n.avg.g nodePixelCount),
       uadd acc.2.2.1 (umul n.avg.b nodePixelCount),
       uadd acc.2.2.2 nodePixelCount)

/-- QTree::CalculateAverageColor: the area-weighted average of the present
children's stored averages, in `unsigned int` arithmetic; alpha is left at the
default-constructed value. -/
def calculateAverageColor (nw ne sw se : ONode) : RGBAPixel :=
  let s := addColor (addColor (addColor (addColor (0, 0, 0, 0) nw) ne) sw) se
  let sumRed := s.1
  let sumGreen := s.2.1
  let sumBlue := s.2.2.1
  let pixelCount := s.2.2.2
  if pixelCount > 0 then
    { defaultPix with r := sumRed / pixelCount, g := sumGreen / pixelCount,
                      b := sumBlue / pixelCount }
  else
    match nw with
    | .some n => n.avg
    | .none => defaultPix

/-- An image, the external PNG collaborator: pixel lookup by (x, y). -/
def Image : Type := Nat → Nat → RGBAPixel

/-- QTree::BuildNode, with a fuel argument to make the rectangle recursion
structural.  Any fuel exceeding the rectangle's width+height is enough (see
`buildNode_fuel`-style lemmas); with fuel 0 the result is null. -/
def buildNode (fuel : Nat) (img : Image) (ul lr : Nat × Nat) : ONode :=
  match fuel with
  | 0 => .none
  | fuel + 1 =>
    if ul = lr then
      .some (.mk ul lr (img ul.1 ul.2) .none .none .none .none)
    else
      let midX := (uadd ul.1 lr.1) / 2
      let midY := (uadd ul.2 lr.2) / 2
      let nw := if ul.1 ≤ midX ∧ ul.2 ≤ midY then
          buildNode fuel img ul (midX, midY) else .none
      let ne := if uadd midX 1 ≤ lr.1 ∧ ul.2 ≤ midY then
          buildNode fuel img (uadd midX 1, ul.2) (lr.1, midY) else .none
      let sw := if ul.1 ≤ midX ∧ uadd midY 1 ≤ lr.2 then
          buildNode fuel img (ul.1, uadd midY 1) (midX, lr.2) else .none
      let se := if uadd midX 1 ≤ lr.1 ∧ uadd midY 1 ≤ lr.2 then
          buildNode fuel img (uadd midX 1, uadd midY 1) lr else .none
      .some (.mk ul lr (calculateAverageColor nw ne sw se) nw ne sw se)

/-- The QTree object: current logical width/height and the root pointer. -/
structure QTreeM where
  width : Nat
  height : Nat
  root : ONode

/-- The QTree constructor: width/height from the image, root built over the
rectangle (0,0)-(width-1, height-1).  Fuel width+height is enough for the
whole recursion. -/
def QTreeM.build (img : Image) (w h : Nat) : QTreeM :=
  ⟨w, h, buildNode (w + h) img (0, 0) (usub w 1, usub h 1)⟩

/-- The PNG canvas produced by Render: dimensions plus pixel contents. -/
structure Canvas where
  w : Nat
  h : Nat
  pix : Nat → Nat → RGBAPixel

/-- The set of target columns a leaf covers at a given scale: the x-loop of
QTree::RenderNode runs from upLeft.x*scale while x < (lowRight.x+1)*scale, in
unsigned arithmetic. -/
def coversX (n : Node) (scale x : Nat) : Prop :=
  umul n.upLeft.1 scale ≤ x ∧ x < umul (uadd n.lowRight.1 1) scale

/-- The y-loop bounds of QTree::RenderNode. -/
def coversY (n : Node) (scale y : Nat) : Prop :=
  umul n.upLeft.2 scale ≤ y ∧ y < umul (uadd n.lowRight.2 1) scale

instance (n : Node) (scale x : Nat) : Decidable (coversX n scale x) := by
  unfold coversX; infer_instance

instance (n : Node) (scale y : Nat) : Decidable (coversY n scale y) := by
  unfold coversY; infer_instance

mutual
/-- QTree::RenderNode on a non-null node: a leaf paints its (scaled) rectangle
with its average color, clipped to the canvas; an internal node renders its
children in the order NW, NE, SW, SE (later writes win). -/
def renderN (n : Node) (scale : Nat) (c : Canvas) : Canvas :=
  match n with
  | .mk ul lr avg nw ne sw se =>
    if isLeafN (.mk ul lr avg nw ne sw se) then
      ⟨c.w, c.h, fun x y =>
        if coversX (.mk ul lr avg nw ne sw se) scale x ∧
           coversY (.mk ul lr avg nw ne sw se) scale y ∧ x < c.w ∧ y < c.h
        then avg else c.pix x y⟩
    else
      renderO se scale (renderO sw scale (renderO ne scale (renderO nw scale c)))
/-- QTree::RenderNode on a possibly-null node. -/
def renderO (o : ONode) (scale : Nat) (c : Canvas) : Canvas :=
  match o with
  | .none => c
  | .some n => renderN n scale c
end

/-- QTree::Render: paints onto a fresh default-colored canvas of dimensions
width*scale by height*scale. -/
def QTreeM.Render (t : QTreeM) (scale : Nat) : Canvas :=
  renderO t.root scale ⟨umul t.width scale, umul t.height scale, fun _ _ => defaultPix⟩

/-- The rendered pixel at (x, y). -/
def QTreeM.renderAt (t : QTreeM) (scale x y : Nat) : RGBAPixel :=
  (t.Render scale).pix x y

mutual
/-- QTree::CanPrune on a non-null node: a leaf is prunable iff its stored
color is within tolerance of the given average; an internal node iff all four
children are. -/
def canPruneN (n : Node) (avgColor : RGBAPixel) (tolerance : Nat) : Bool :=
  match n with
  | .mk ul lr avg nw ne sw se =>
    if isLeafN (.mk ul lr avg nw ne sw se) then
      decide (avg.distanceTo avgColor ≤ tolerance)
    else
      canPruneO nw avgColor tolerance && canPruneO ne avgColor tolerance &&
      canPruneO sw avgColor tolerance && canPruneO se avgColor tolerance
/-- QTree::CanPrune on a possibly-null node: a null node is prunable. -/
def canPruneO (o : ONode) (avgColor : RGBAPixel) (tolerance : Nat) : Bool :=
  match o with
  | .none => true
  | .some n => canPruneN n avgColor tolerance
end

mutual
/-- QTree::PruneNode on a non-null node: leaves are returned unchanged;
otherwise the children are pruned first, and then, if CanPrune holds of the
node (with its already-pruned children) against its own stored average, all
children are cleared. -/
def pruneN (n : Node) (tolerance : Nat) : Node :=
  match n with
  | .mk ul lr avg nw ne sw se =>
    if isLeafN (.mk ul lr avg nw ne sw se) then .mk ul lr avg nw ne sw se
    else
      let nw2 := pruneO nw tolerance
      let ne2 := pruneO ne tolerance
      let sw2 := pruneO sw tolerance
      let se2 := pruneO se tolerance
      if canPruneN (.mk ul lr avg nw2 ne2 sw2 se2) avg tolerance then
        .mk ul lr avg .none .none .none .none
      else
        .mk ul lr avg nw2 ne2 sw2 se2
/-- QTree::PruneNode on a possibly-null node. -/
def pruneO (o : ONode) (tolerance : Nat) : ONode :=
  match o with
  | .none => .none
  | .some n => .some (pruneN n tolerance)
end

/-- QTree::Prune: prunes from the root. -/
def QTreeM.Prune (t : QTreeM) (tolerance : Nat) : QTreeM :=
  ⟨t.width, t.height, pruneO t.root tolerance⟩

/-- QTree::FlipNodeHorizontal combined with UpdateCoordinatesAfterFlip, as it
acts on a child slot: the node's own x-coordinates are remapped via
newLeft = (width-1) - oldRight, newRight = (width-1) - oldLeft (unsigned
arithmetic), its NW/NE and SW/SE subtrees are exchanged, and the same applies
recursively.  (FlipNodeHorizontal swaps the child pointers, calls
UpdateCoordinatesAfterFlip on each child's own coordinates, then recurses.) -/
def flipCh (w : Nat) (o : ONode) : ONode :=
  match o with
  | .none => .none
  | .some (.mk ul lr avg nw ne sw se) =>
      .some (.mk (usub (usub w 1) lr.1, ul.2) (usub (usub w 1) ul.1, lr.2) avg
        (flipCh w ne) (flipCh w nw) (flipCh w se) (flipCh w sw))

/-- QTree::FlipNodeHorizontal as applied to the root: the root's own
coordinates are never remapped (only children's are), but its child subtrees
are exchanged and flipped. -/
def flipRoot (w : Nat) (o : ONode) : ONode :=
  match o with
  | .none => .none
  | .some (.mk ul lr avg nw ne sw se) =>
      .some (.mk ul lr avg (flipCh w ne) (flipCh w nw) (flipCh w se) (flipCh w sw))

/-- QTree::FlipHorizontal. -/
def QTreeM.FlipHorizontal (t : QTreeM) : QTreeM :=
  ⟨t.width, t.height, flipRoot t.width t.root⟩

/-- QTree::RotateNodeCCW: the child pointers are cycled (new NW gets old SW,
new SW old SE, new SE old NE, new NE old NW), the children are recursed into
with rectangle parameters computed from the passed-down (ul, lr), and the
node's own coordinates are overwritten from (ul, lr); all arithmetic is
unsigned. -/
def rotO (o : ONode) (ul lr : Nat × Nat) : ONode :=
  match o with
  | .none => .none
  | .some (.mk _ _ avg nw ne sw se) =>
      let midX := (uadd ul.1 lr.1) / 2
      let midY := (uadd ul.2 lr.2) / 2
      .some (.mk (ul.2, usub lr.1 (usub lr.1 ul.1)) (lr.2, usub lr.1 ul.1) avg
        (rotO sw (ul.2, usub lr.1 midX) (midY, lr.1))
        (rotO nw (ul.2, ul.1) (midY, usub lr.1 midX))
        (rotO se (uadd midY 1, usub lr.1 midX) (lr.2, lr.1))
        (rotO ne (uadd midY 1, ul.1) (lr.2, usub lr.1 midX)))

/-- QTree::RotateCCW: width and height are swapped first, then the root is
rotated over the rectangle (0,0)-(newWidth-1, newHeight-1). -/
def QTreeM.RotateCCW (t : QTreeM) : QTreeM :=
  ⟨t.height, t.width, rotO t.root (0, 0) (usub t.height 1, usub t.width 1)⟩

mutual
/-- The leaves of a subtree, in the NW, NE, SW, SE traversal order used by
RenderNode. -/
def leavesN (n : Node) : List Node :=
  match n with
  | .mk ul lr avg nw ne sw se =>
    if isLeafN (.mk ul lr avg nw ne sw se) then [.mk ul lr avg nw ne sw se]
    else leavesO nw ++ leavesO ne ++ leavesO sw ++ leavesO se
/-- The leaves below a possibly-null node. -/
def leavesO (o : ONode) : List Node :=
  match o with
  | .none => []
  | .some n => leavesN n
end

mutual
/-- All nodes of a subtree (the node itself and, recursively, its children). -/
def nodesN (n : Node) : List Node :=
  match n with
  | .mk ul lr avg nw ne sw se =>
    .mk ul lr avg nw ne sw se :: (nodesO nw ++ nodesO ne ++ nodesO sw ++ nodesO se)
/-- All nodes below a possibly-null node. -/
def nodesO (o : ONode) : List Node :=
  match o with
  | .none => []
  | .some n => nodesN n
end

/-- Grayscale pixel helper for the test images. -/
def gray (v : Nat) : RGBAPixel := ⟨v, v, v, 255⟩

def img2 : Image := fun x y =>
  if x = 0 ∧ y = 0 then gray 10 else if x = 1 ∧ y = 0 then gray 20
  else if x = 0 ∧ y = 1 then gray 30 else gray 40

/-- The 4x1 grayscale image with columns 0, 10, 16, 16: the failing input for
the pruning claim. -/
def img4 : Image := fun x _ =>
  if x = 0 then gray 0 else if x = 1 then gray 10 else gray 16

/-- Modelled from the spec: leafwise pruning criterion.  The spec's contract
collapses a subtree exactly when every leaf beneath it (in the tree being
pruned, before any collapsing) is within tolerance of the subtree root's own
stored average color. -/
def specPrunable (n : Node) (tolerance : Nat) : Prop :=
  ∀ l ∈ leavesN n, l.avg.distanceTo n.avg ≤ tolerance

instance (n : Node) (tolerance : Nat) : Decidable (specPrunable n tolerance) := by
  unfold specPrunable; infer_instance

mutual
/-- Size of a node, for strong induction over the mutual node structure. -/
def nsize (n : Node) : Nat :=
  match n with
  | .mk _ _ _ nw ne sw se => 1 + osize nw + osize ne + osize sw + osize se
/-- Size of a possibly-null node. -/
def osize (o : ONode) : Nat :=
  match o with
  | .none => 0
  | .some n => 1 + nsize n
end

/-- Number of nodes in a subtree. -/
def countNodes (o : ONode) : Nat := (nodesO o).length

/-- The exact pixel area of a node's rectangle (in plain arithmetic, as used
to state the averaging claims). -/
def area (n : Node) : Nat :=
  (n.lowRight.1 - n.upLeft.1 + 1) * (n.lowRight.2 - n.upLeft.2 + 1)

/-- Area of a possibly-null child (0 when absent). -/
def areaO (o : ONode) : Nat :=
  match o with
  | .none => 0
  | .some n => area n

/-- Red-channel contribution of a possibly-null child: stored average red
times pixel area (exact arithmetic). -/
def sumRO (o : ONode) : Nat :=
  match o with
  | .none => 0
  | .some n => n.avg.r * area n

/-- Green-channel contribution of a possibly-null child. -/
def sumGO (o : ONode) : Nat :=
  match o with
  | .none => 0
  | .some n => n.avg.g * area n

/-- Blue-channel contribution of a possibly-null child. -/
def sumBO (o : ONode) : Nat :=
  match o with
  | .none => 0
  | .some n => n.avg.b * area n

/-- Total pixel area of a node's present children (exact arithmetic). -/
def areaSum (n : Node) : Nat := areaO n.nw + areaO n.ne + areaO n.sw + areaO n.se

/-- Exact red-channel area-weighted sum over a node's present children. -/
def sumR (n : Node) : Nat := sumRO n.nw + sumRO n.ne + sumRO n.sw + sumRO n.se

/-- Exact green-channel area-weighted sum over a node's present children. -/
def sumG (n : Node) : Nat := sumGO n.nw + sumGO n.ne + sumGO n.sw + sumGO n.se

/-- Exact blue-channel area-weighted sum over a node's present children. -/
def sumB (n : Node) : Nat := sumBO n.nw + sumBO n.ne + sumBO n.sw + sumBO n.se

theorem uadd_eq_of_lt (x y : Nat) (h : x + y < u32) : uadd x y = x + y := by
  simp [uadd, u32] at *
  omega

theorem usub_lt (x y : Nat) : usub x y < u32 := by
  simp [usub, u32]
  omega

theorem usub_eq_of_le (x y : Nat) (hyx : y ≤ x) (hx : x < u32) : usub x y = x - y := by
  simp [usub, u32] at *
  omega

theorem usub_usub_self (c x : Nat) (hx : x < u32) : usub c (usub c x) = x := by
  simp [usub, u32] at *
  omega

theorem umul_one (x : Nat) (hx : x < u32) : umul x 1 = x := by
  simp [umul, u32] at *
  omega

mutual
/-- All coordinates of every node in a subtree are representable `unsigned
int` values (below 2^32); this is automatic for the C++ code and needed for
the modular arithmetic to coincide with its two's-complement reading. -/
def wf32N (n : Node) : Bool :=
  match n with
  | .mk ul lr _ nw ne sw se =>
    decide (ul.1 < u32) && decide (ul.2 < u32) && decide (lr.1 < u32) &&
    decide (lr.2 < u32) && wf32O nw && wf32O ne && wf32O sw && wf32O se
/-- Well-formedness of a possibly-null subtree. -/
def wf32O (o : ONode) : Bool :=
  match o with
  | .none => true
  | .some n => wf32N n
end

theorem flipCh_flipCh (w : Nat) : ∀ o : ONode, wf32O o = true → flipCh w (flipCh w o) = o := by
  refine ONode.rec
    (motive_1 := fun n => wf32N n = true → flipCh w (flipCh w (.some n)) = .some n)
    (motive_2 := fun o => wf32O o = true → flipCh w (flipCh w o) = o)
    ?_ ?_ ?_
  · intro ul lr avg nw ne sw se ihnw ihne ihsw ihse h
    simp only [wf32N, Bool.and_eq_true, decide_eq_true_eq] at h
    obtain ⟨⟨⟨⟨⟨⟨⟨h1, h2⟩, h3⟩, h4⟩, hnw⟩, hne⟩, hsw⟩, hse⟩ := h
    simp only [flipCh]
    rw [usub_usub_self _ _ h1, usub_usub_self _ _ h3, ihnw hnw, ihne hne, ihsw hsw, ihse hse]
  · intro _
    rfl
  · intro n ih h
    exact ih h

theorem flipRoot_flipRoot (w : Nat) (o : ONode) (h : wf32O o = true) :
    flipRoot w (flipRoot w o) = o := by
  cases o with
  | none => rfl
  | some n =>
    cases n with
    | mk ul lr avg nw ne sw se =>
      simp only [wf32O, wf32N, Bool.and_eq_true, decide_eq_true_eq] at h
      obtain ⟨⟨⟨⟨⟨⟨⟨h1, h2⟩, h3⟩, h4⟩, hnw⟩, hne⟩, hsw⟩, hse⟩ := h
      simp only [flipRoot]
      rw [flipCh_flipCh w nw hnw, flipCh_flipCh w ne hne,
          flipCh_flipCh w sw hsw, flipCh_flipCh w se hse]

theorem flip_flip_eq (t : QTreeM) (h : wf32O t.root = true) :
    t.FlipHorizontal.FlipHorizontal = t := by
  cases t with
  | mk w ht root =>
    simp only [QTreeM.FlipHorizontal]
    rw [flipRoot_flipRoot w root h]

/-- Claim C6: calling FlipHorizontal twice in succession restores the original
Render(1) output bit-for-bit (for any tree whose stored coordinates are
representable unsigned ints, which is automatic in the C++ code). -/
theorem C6_flip_horizontal_involution (t : QTreeM) (h : wf32O t.root = true) :
    t.FlipHorizontal.FlipHorizontal.Render 1 = t.Render 1 := by
  rw [flip_flip_eq t h]

/-- Witness for C6 at a concrete tree: the quadtree built from the 2x2 image. -/
theorem C6_flip_horizontal_involution_witness :
    wf32O (QTreeM.build img2 2 2).root = true ∧
    (QTreeM.build img2 2 2).FlipHorizontal.FlipHorizontal.Render 1 =
      (QTreeM.build img2 2 2).Render 1 :=
  ⟨by decide, C6_flip_horizontal_involution (QTreeM.build img2 2 2) (by decide)⟩

theorem buildNode_isSome (img : Image) (fuel : Nat) (hf : 0 < fuel) (ul lr : Nat × Nat) :
    ∃ n, buildNode fuel img ul lr = .some n := by
  cases fuel with
  | zero => omega
  | succ fuel =>
    simp only [buildNode]
    split
    · exact ⟨_, rfl⟩
    · exact ⟨_, rfl⟩

theorem isLeafN_of_nw_some (ul lr : Nat × Nat) (avg : RGBAPixel) (m : Node) (ne sw se : ONode) :
    isLeafN (.mk ul lr avg (.some m) ne sw se) = false := by
  simp [isLeafN, Node.nw, ONode.isNull]

/-- Shape of the induction hypothesis of `renderO_buildNode`: rendering the
tree built over a rectangle repaints exactly that rectangle (clipped to the
canvas) with the source pixels. -/
def RenderBuildIH (img : Image) (fuel : Nat) : Prop :=
  ∀ ul lr : Nat × Nat, ∀ c : Canvas,
    (lr.1 - ul.1) + (lr.2 - ul.2) < fuel →
    ul.1 ≤ lr.1 → ul.2 ≤ lr.2 →
    lr.1 < 2147483648 → lr.2 < 2147483648 →
    (renderO (buildNode fuel img ul lr) 1 c).w = c.w ∧
    (renderO (buildNode fuel img ul lr) 1 c).h = c.h ∧
    ∀ x y, (renderO (buildNode fuel img ul lr) 1 c).pix x y =
      if ul.1 ≤ x ∧ x ≤ lr.1 ∧ ul.2 ≤ y ∧ y ≤ lr.2 ∧ x < c.w ∧ y < c.h
      then img x y else c.pix x y

theorem renderO_layer (img : Image) (fuel : Nat) (ih : RenderBuildIH img fuel)
    (P : Prop) [Decidable P] (a b : Nat × Nat) (c : Canvas)
    (hgood : P → (b.1 - a.1) + (b.2 - a.2) < fuel ∧ a.1 ≤ b.1 ∧ a.2 ≤ b.2 ∧
      b.1 < 2147483648 ∧ b.2 < 2147483648) :
    (renderO (if P then buildNode fuel img a b else .none) 1 c).w = c.w ∧
    (renderO (if P then buildNode fuel img a b else .none) 1 c).h = c.h ∧
    ∀ x y, (renderO (if P then buildNode fuel img a b else .none) 1 c).pix x y =
      if P ∧ (a.1 ≤ x ∧ x ≤ b.1 ∧ a.2 ≤ y ∧ y ≤ b.2 ∧ x < c.w ∧ y < c.h)
      then img x y else c.pix x y := by
  by_cases hp : P
  · rw [if_pos hp]
    obtain ⟨hml, hab1, hab2, hb1, hb2⟩ := hgood hp
    obtain ⟨hw, hh, hpix⟩ := ih a b c hml hab1 hab2 hb1 hb2
    refine ⟨hw, hh, ?_⟩
    intro x y
    rw [hpix x y]
    by_cases hc : a.1 ≤ x ∧ x ≤ b.1 ∧ a.2 ≤ y ∧ y ≤ b.2 ∧ x < c.w ∧ y < c.h
    · rw [if_pos hc, if_pos ⟨hp, hc⟩]
    · rw [if_neg hc, if_neg (fun h => hc h.2)]
  · rw [if_neg hp]
    refine ⟨rfl, rfl, ?_⟩
    intro x y
    rw [if_neg (fun h => hp h.1)]
    rfl

theorem renderO_buildNode (img : Image) : ∀ fuel : Nat, RenderBuildIH img fuel := by
  intro fuel
  induction fuel with
  | zero =>
    intro ul lr c hm
    omega
  | succ fuel ih =>
    intro ul lr c hm hx hy hbx hby
    by_cases heq : ul = lr
    · subst heq
      simp only [buildNode, if_pos rfl, renderO, renderN, isLeafN, ONode.isNull,
        Node.nw, Node.ne, Node.sw, Node.se, Bool.and_self, if_true]
      refine ⟨by trivial, by trivial, ?_⟩
      intro x y
      have e1 : umul ul.1 1 = ul.1 := umul_one _ (by simp [u32]; omega)
      have e2 : umul ul.2 1 = ul.2 := umul_one _ (by simp [u32]; omega)
      have e3 : umul (uadd ul.1 1) 1 = ul.1 + 1 := by
        rw [uadd_eq_of_lt _ _ (by simp [u32]; omega)]
        exact umul_one _ (by simp [u32]; omega)
      have e4 : umul (uadd ul.2 1) 1 = ul.2 + 1 := by
        rw [uadd_eq_of_lt _ _ (by simp [u32]; omega)]
        exact umul_one _ (by simp [u32]; omega)
      simp only [coversX, coversY, Node.upLeft, Node.lowRight, e1, e2, e3, e4]
      split_ifs with h1 h2
      · have hxx : x = ul.1 := by omega
        have hyy : y = ul.2 := by omega
        rw [hxx, hyy]
      · omega
      · omega
      · rfl
    · have hm1 : 1 ≤ (lr.1 - ul.1) + (lr.2 - ul.2) := by
        rcases Nat.lt_or_ge ul.1 lr.1 with h | h
        · omega
        · rcases Nat.lt_or_ge ul.2 lr.2 with h2 | h2
          · omega
          · exact absurd (Prod.ext (by omega) (by omega)) heq
      have hfuel : 1 ≤ fuel := by omega
      have hsx : uadd ul.1 lr.1 = ul.1 + lr.1 := uadd_eq_of_lt _ _ (by simp [u32]; omega)
      have hsy : uadd ul.2 lr.2 = ul.2 + lr.2 := uadd_eq_of_lt _ _ (by simp [u32]; omega)
      simp only [buildNode, if_neg heq, hsx, hsy]
      set midX := (ul.1 + lr.1) / 2 with hmidX
      set midY := (ul.2 + lr.2) / 2 with hmidY
      have hmx1 : ul.1 ≤ midX := by omega
      have hmx2 : midX ≤ lr.1 := by omega
      have hmy1 : ul.2 ≤ midY := by omega
      have hmy2 : midY ≤ lr.2 := by omega
      have hne1 : uadd midX 1 = midX + 1 := uadd_eq_of_lt _ _ (by simp [u32]; omega)
      have hne2 : uadd midY 1 = midY + 1 := uadd_eq_of_lt _ _ (by simp [u32]; omega)
      simp only [hne1, hne2]
      have hnwP : ul.1 ≤ midX ∧ ul.2 ≤ midY := ⟨hmx1, hmy1⟩
      obtain ⟨n0, hn0⟩ := buildNode_isSome img fuel hfuel ul (midX, midY)
      have hnwE : (if ul.1 ≤ midX ∧ ul.2 ≤ midY then buildNode fuel img ul (midX, midY)
          else ONode.none) = .some n0 := by rw [if_pos hnwP, hn0]
      rw [hnwE]
      simp only [renderO, renderN, isLeafN_of_nw_some, Bool.false_eq_true, if_false]
      have hrw : renderN n0 1 c = renderO (if ul.1 ≤ midX ∧ ul.2 ≤ midY then
          buildNode fuel img ul (midX, midY) else ONode.none) 1 c := by
        rw [hnwE]
        simp [renderO]
      rw [hrw]
      have Lnw := renderO_layer img fuel ih (ul.1 ≤ midX ∧ ul.2 ≤ midY) ul (midX, midY) c
        (fun _ => ⟨by omega, hmx1, hmy1, by omega, by omega⟩)
      set c1 := renderO (if ul.1 ≤ midX ∧ ul.2 ≤ midY then buildNode fuel img ul (midX, midY)
          else ONode.none) 1 c with hc1
      have Lne := renderO_layer img fuel ih (midX + 1 ≤ lr.1 ∧ ul.2 ≤ midY)
        (midX + 1, ul.2) (lr.1, midY) c1
        (fun hp => ⟨by omega, by omega, hmy1, by omega, by omega⟩)
      set c2 := renderO (if midX + 1 ≤ lr.1 ∧ ul.2 ≤ midY then
          buildNode fuel img (midX + 1, ul.2) (lr.1, midY) else ONode.none) 1 c1 with hc2
      have Lsw := renderO_layer img fuel ih (ul.1 ≤ midX ∧ midY + 1 ≤ lr.2)
        (ul.1, midY + 1) (midX, lr.2) c2
        (fun hp => ⟨by omega, hmx1, by omega, by omega, by omega⟩)
      set c3 := renderO (if ul.1 ≤ midX ∧ midY + 1 ≤ lr.2 then
          buildNode fuel img (ul.1, midY + 1) (midX, lr.2) else ONode.none) 1 c2 with hc3
      have Lse := renderO_layer img fuel ih (midX + 1 ≤ lr.1 ∧ midY + 1 ≤ lr.2)
        (midX + 1, midY + 1) lr c3
        (fun hp => ⟨by omega, by omega, by omega, by omega, by omega⟩)
      obtain ⟨hw1, hh1, hp1⟩ := Lnw
      obtain ⟨hw2, hh2, hp2⟩ := Lne
      obtain ⟨hw3, hh3, hp3⟩ := Lsw
      obtain ⟨hw4, hh4, hp4⟩ := Lse
      refine ⟨by rw [hw4, hw3, hw2, hw1], by rw [hh4, hh3, hh2, hh1], ?_⟩
      intro x y
      rw [hp4 x y, hp3 x y, hp2 x y, hp1 x y]
      rw [hw3, hw2, hw1, hh3, hh2, hh1]
      split_ifs <;> first | rfl | omega

/-- Claim C1: Render(1) on a freshly built, unpruned tree produces a pixel
buffer identical to the source image, pixel-for-pixel (for any nonempty image
of representable size). -/
theorem C1_render_identity (img : Image) (W H : Nat) (hW : 0 < W) (hH : 0 < H)
    (hbW : W < 2147483648) (hbH : H < 2147483648) :
    ((QTreeM.build img W H).Render 1).w = W ∧
    ((QTreeM.build img W H).Render 1).h = H ∧
    ∀ x y, x < W → y < H → ((QTreeM.build img W H).Render 1).pix x y = img x y := by
  have e1 : usub W 1 = W - 1 := usub_eq_of_le _ _ (by omega) (by simp [u32]; omega)
  have e2 : usub H 1 = H - 1 := usub_eq_of_le _ _ (by omega) (by simp [u32]; omega)
  have ew : umul W 1 = W := umul_one _ (by simp [u32]; omega)
  have eh : umul H 1 = H := umul_one _ (by simp [u32]; omega)
  obtain ⟨hw, hh, hpix⟩ := renderO_buildNode img (W + H) (0, 0) (W - 1, H - 1)
    ⟨W, H, fun _ _ => defaultPix⟩ (by simp; omega) (by simp) (by simp)
    (by simp; omega) (by simp; omega)
  simp only [QTreeM.Render, QTreeM.build, e1, e2, ew, eh]
  refine ⟨hw, hh, ?_⟩
  intro x y hxW hyH
  rw [hpix x y, if_pos (by refine ⟨?_, ?_, ?_, ?_, ?_, ?_⟩ <;> simp <;> omega)]

/-- Witness for C1: the 2x2 image img2 is reproduced exactly. -/
theorem C1_render_identity_witness :
    ((QTreeM.build img2 2 2).Render 1).w = 2 ∧
    ((QTreeM.build img2 2 2).Render 1).h = 2 ∧
    ((QTreeM.build img2 2 2).Render 1).pix 0 1 = img2 0 1 :=
  ⟨(C1_render_identity img2 2 2 (by decide) (by decide) (by decide) (by decide)).1,
   (C1_render_identity img2 2 2 (by decide) (by decide) (by decide) (by decide)).2.1,
   (C1_render_identity img2 2 2 (by decide) (by decide) (by decide) (by decide)).2.2
     0 1 (by decide) (by decide)⟩

/-- Membership of a pixel coordinate in a node's (inclusive) rectangle. -/
def inRect (n : Node) (x y : Nat) : Prop :=
  n.upLeft.1 ≤ x ∧ x ≤ n.lowRight.1 ∧ n.upLeft.2 ≤ y ∧ y ≤ n.lowRight.2

instance (n : Node) (x y : Nat) : Decidable (inRect n x y) := by
  unfold inRect; infer_instance

/-- Number of leaf rectangles of a subtree containing a given pixel
coordinate. -/
def leafCoverCount (o : ONode) (x y : Nat) : Nat :=
  (leavesO o).countP (fun n => decide (inRect n x y))

/-- Shape of the induction hypothesis of `leafCoverCount_buildNode`: the leaf
rectangles of a built subtree cover each coordinate of its rectangle exactly
once and nothing outside it. -/
def LeafCountIH (img : Image) (fuel : Nat) : Prop :=
  ∀ ul lr : Nat × Nat,
    (lr.1 - ul.1) + (lr.2 - ul.2) < fuel →
    ul.1 ≤ lr.1 → ul.2 ≤ lr.2 →
    lr.1 < 2147483648 → lr.2 < 2147483648 →
    ∀ x y, leafCoverCount (buildNode fuel img ul lr) x y =
      if ul.1 ≤ x ∧ x ≤ lr.1 ∧ ul.2 ≤ y ∧ y ≤ lr.2 then 1 else 0

theorem leafCount_layer (img : Image) (fuel : Nat) (ih : LeafCountIH img fuel)
    (P : Prop) [Decidable P] (a b : Nat × Nat) (x y : Nat)
    (hgood : P → (b.1 - a.1) + (b.2 - a.2) < fuel ∧ a.1 ≤ b.1 ∧ a.2 ≤ b.2 ∧
      b.1 < 2147483648 ∧ b.2 < 2147483648) :
    leafCoverCount (if P then buildNode fuel img a b else .none) x y =
      if P ∧ (a.1 ≤ x ∧ x ≤ b.1 ∧ a.2 ≤ y ∧ y ≤ b.2) then 1 else 0 := by
  by_cases hp : P
  · rw [if_pos hp]
    obtain ⟨hml, hab1, hab2, hb1, hb2⟩ := hgood hp
    rw [ih a b hml hab1 hab2 hb1 hb2 x y]
    by_cases hc : a.1 ≤ x ∧ x ≤ b.1 ∧ a.2 ≤ y ∧ y ≤ b.2
    · rw [if_pos hc, if_pos ⟨hp, hc⟩]
    · rw [if_neg hc, if_neg (fun h => hc h.2)]
  · rw [if_neg hp, if_neg (fun h => hp h.1)]
    rfl

theorem leafCoverCount_buildNode (img : Image) : ∀ fuel : Nat, LeafCountIH img fuel := by
  intro fuel
  induction fuel with
  | zero =>
    intro ul lr hm
    omega
  | succ fuel ih =>
    intro ul lr hm hx hy hbx hby x y
    by_cases heq : ul = lr
    · subst heq
      simp only [buildNode, if_pos rfl, leafCoverCount, leavesO, leavesN, isLeafN,
        ONode.isNull, Node.nw, Node.ne, Node.sw, Node.se, Bool.and_self, if_true,
        List.countP_cons, List.countP_nil, inRect, Node.upLeft, Node.lowRight]
      split_ifs with h1 h2 <;> simp at * <;> omega
    · have hm1 : 1 ≤ (lr.1 - ul.1) + (lr.2 - ul.2) := by
        rcases Nat.lt_or_ge ul.1 lr.1 with h | h
        · omega
        · rcases Nat.lt_or_ge ul.2 lr.2 with h2 | h2
          · omega
          · exact absurd (Prod.ext (by omega) (by omega)) heq
      have hfuel : 1 ≤ fuel := by omega
      have hsx : uadd ul.1 lr.1 = ul.1 + lr.1 := uadd_eq_of_lt _ _ (by simp [u32]; omega)
      have hsy : uadd ul.2 lr.2 = ul.2 + lr.2 := uadd_eq_of_lt _ _ (by simp [u32]; omega)
      simp only [buildNode, if_neg heq, hsx, hsy]
      set midX := (ul.1 + lr.1) / 2 with hmidX
      set midY := (ul.2 + lr.2) / 2 with hmidY
      have hmx1 : ul.1 ≤ midX := by omega
      have hmx2 : midX ≤ lr.1 := by omega
      have hmy1 : ul.2 ≤ midY := by omega
      have hmy2 : midY ≤ lr.2 := by omega
      have hne1 : uadd midX 1 = midX + 1 := uadd_eq_of_lt _ _ (by simp [u32]; omega)
      have hne2 : uadd midY 1 = midY + 1 := uadd_eq_of_lt _ _ (by simp [u32]; omega)
      simp only [hne1, hne2]
      have hnwP : ul.1 ≤ midX ∧ ul.2 ≤ midY := ⟨hmx1, hmy1⟩
      obtain ⟨n0, hn0⟩ := buildNode_isSome img fuel hfuel ul (midX, midY)
      have hnwE : (if ul.1 ≤ midX ∧ ul.2 ≤ midY then buildNode fuel img ul (midX, midY)
          else ONode.none) = .some n0 := by rw [if_pos hnwP, hn0]
      rw [hnwE]
      simp only [leafCoverCount, leavesO, leavesN, isLeafN_of_nw_some,
        Bool.false_eq_true, if_false, List.countP_append]
      have hLnw : (leavesN n0).countP (fun n => decide (inRect n x y)) =
          if (ul.1 ≤ midX ∧ ul.2 ≤ midY) ∧
            (ul.1 ≤ x ∧ x ≤ midX ∧ ul.2 ≤ y ∧ y ≤ midY) then 1 else 0 := by
        have h0 := leafCount_layer img fuel ih (ul.1 ≤ midX ∧ ul.2 ≤ midY) ul (midX, midY)
          x y (fun _ => ⟨by omega, hmx1, hmy1, by omega, by omega⟩)
        rw [hnwE] at h0
        simpa [leafCoverCount, leavesO] using h0
      have hLne := leafCount_layer img fuel ih (midX + 1 ≤ lr.1 ∧ ul.2 ≤ midY)
        (midX + 1, ul.2) (lr.1, midY) x y
        (fun hp => ⟨by omega, by omega, hmy1, by omega, by omega⟩)
      have hLsw := leafCount_layer img fuel ih (ul.1 ≤ midX ∧ midY + 1 ≤ lr.2)
        (ul.1, midY + 1) (midX, lr.2) x y
        (fun hp => ⟨by omega, hmx1, by omega, by omega, by omega⟩)
      have hLse := leafCount_layer img fuel ih (midX + 1 ≤ lr.1 ∧ midY + 1 ≤ lr.2)
        (midX + 1, midY + 1) lr x y
        (fun hp => ⟨by omega, by omega, by omega, by omega, by omega⟩)
      simp only [leafCoverCount] at hLne hLsw hLse
      rw [hLnw, hLne, hLsw, hLse]
      split_ifs <;> omega

/-- Claim C5: for a freshly built tree over a W x H image, the multiset of
leaf rectangles exactly tiles the region: every coordinate inside it lies in
exactly one leaf rectangle, and no leaf rectangle reaches outside it. -/
theorem C5_leaf_tiling (img : Image) (W H : Nat) (hW : 0 < W) (hH : 0 < H)
    (hbW : W < 2147483648) (hbH : H < 2147483648) :
    ∀ x y, leafCoverCount (QTreeM.build img W H).root x y =
      if x < W ∧ y < H then 1 else 0 := by
  intro x y
  have e1 : usub W 1 = W - 1 := usub_eq_of_le _ _ (by omega) (by simp [u32]; omega)
  have e2 : usub H 1 = H - 1 := usub_eq_of_le _ _ (by omega) (by simp [u32]; omega)
  have h0 := leafCoverCount_buildNode img (W + H) (0, 0) (W - 1, H - 1)
    (by simp; omega) (by simp) (by simp) (by simp; omega) (by simp; omega) x y
  simp only [QTreeM.build, e1, e2]
  rw [h0]
  split_ifs <;> simp at * <;> omega

/-- Witness for C5 on the concrete 2x2 image: the coordinate (1, 0) is covered
exactly once and the out-of-range coordinate (2, 0) is not covered. -/
theorem C5_leaf_tiling_witness :
    leafCoverCount (QTreeM.build img2 2 2).root 1 0 = (if 1 < 2 ∧ 0 < 2 then 1 else 0) ∧
    leafCoverCount (QTreeM.build img2 2 2).root 2 0 = (if 2 < 2 ∧ 0 < 2 then 1 else 0) :=
  ⟨C5_leaf_tiling img2 2 2 (by decide) (by decide) (by decide) (by decide) 1 0,
   C5_leaf_tiling img2 2 2 (by decide) (by decide) (by decide) (by decide) 2 0⟩

/-- A placeholder node used to totalize root access; never a real tree node. -/
def dummyNode : Node := .mk (0, 0) (0, 0) defaultPix .none .none .none .none

/-- The root node of a tree (the placeholder if the tree is empty). -/
def rootN (t : QTreeM) : Node :=
  match t.root with
  | .none => dummyNode
  | .some n => n

/-- Claim C4 is false on the code: on the 2x2 image img2, four successive
RotateCCW calls do restore width and height, but the Render(1) output is not
restored: pixel (0,0) renders as gray 20 instead of the original gray 10.
(The rotation cycles the child pointers clockwise rather than
counter-clockwise and miscomputes the children's rectangles, so even a single
rotation's render is not the CCW-rotated image.) -/
theorem C4_rotate_cycle_failing :
    ((QTreeM.build img2 2 2).RotateCCW.RotateCCW.RotateCCW.RotateCCW).width = 2 ∧
    ((QTreeM.build img2 2 2).RotateCCW.RotateCCW.RotateCCW.RotateCCW).height = 2 ∧
    ((QTreeM.build img2 2 2).RotateCCW.RotateCCW.RotateCCW.RotateCCW).renderAt 1 0 0 =
      gray 20 ∧
    (QTreeM.build img2 2 2).renderAt 1 0 0 = gray 10 ∧
    gray 20 ≠ gray 10 := by
  decide

/-- Claim C3 is false on the code: pruning the freshly built 4x1 tree over
img4 (grayscale columns 0, 10, 16, 16) with tolerance 18 collapses the whole
tree to a single leaf, even though the original leaf of color gray 0 is at
distance 30 > 18 from the root's stored average gray 10.  (PruneNode prunes
the children first and then evaluates CanPrune against the already-collapsed
children instead of the original leaves, contradicting the contract stated in
its own comment.) -/
theorem C3_prune_criterion_failing :
    isLeafN (rootN ((QTreeM.build img4 4 1).Prune 18)) = true ∧
    ¬ specPrunable (rootN (QTreeM.build img4 4 1)) 18 ∧
    (rootN (QTreeM.build img4 4 1)).avg = gray 10 := by
  decide

/-- Claim C7 is false on the code as soon as a rotation has occurred: on the
rotated 2x2 tree (width 2), the flipped render at column 0 shows gray 30, but
the pre-flip render at the mirrored column W-1-0 = 1 shows gray 10, so the
flip is not a mirror of the previous image.  (The buggy rotation produces
overlapping leaf rectangles, and flipping swaps the paint order of the
overlapping leaves.) -/
theorem C7_flip_mirror_failing :
    ((QTreeM.build img2 2 2).RotateCCW).width = 2 ∧
    ((QTreeM.build img2 2 2).RotateCCW.FlipHorizontal).renderAt 1 0 0 = gray 30 ∧
    ((QTreeM.build img2 2 2).RotateCCW).renderAt 1 (2 - 1 - 0) 0 = gray 10 ∧
    gray 30 ≠ gray 10 := by
  decide

/-- A possibly-null node whose rectangle is in increasing order with
coordinates below 2^31 (as holds for every node a Build can create). -/
def rectSmallO (o : ONode) : Prop :=
  match o with
  | .none => True
  | .some n => n.upLeft.1 ≤ n.lowRight.1 ∧ n.upLeft.2 ≤ n.lowRight.2 ∧
      n.lowRight.1 < 2147483648 ∧ n.lowRight.2 < 2147483648

theorem addColor_spec (o : ONode) (ho : rectSmallO o) (r g b p : Nat) :
    addColor (r % u32, g % u32, b % u32, p % u32) o =
      ((r + sumRO o) % u32, (g + sumGO o) % u32, (b + sumBO o) % u32,
       (p + areaO o) % u32) := by
  cases o with
  | none => simp [addColor, sumRO, sumGO, sumBO, areaO]
  | some n =>
    obtain ⟨h1, h2, h3, h4⟩ := ho
    have e1 : usub n.lowRight.1 n.upLeft.1 = n.lowRight.1 - n.upLeft.1 :=
      usub_eq_of_le _ _ h1 (by simp [u32]; omega)
    have e2 : usub n.lowRight.2 n.upLeft.2 = n.lowRight.2 - n.upLeft.2 :=
      usub_eq_of_le _ _ h2 (by simp [u32]; omega)
    have e3 : uadd (n.lowRight.1 - n.upLeft.1) 1 = n.lowRight.1 - n.upLeft.1 + 1 :=
      uadd_eq_of_lt _ _ (by simp [u32]; omega)
    have e4 : uadd (n.lowRight.2 - n.upLeft.2) 1 = n.lowRight.2 - n.upLeft.2 + 1 :=
      uadd_eq_of_lt _ _ (by simp [u32]; omega)
    have m1 : (n.lowRight.1 - n.upLeft.1 + 1) % u32 = n.lowRight.1 - n.upLeft.1 + 1 :=
      Nat.mod_eq_of_lt (by simp [u32]; omega)
    have m2 : (n.lowRight.2 - n.upLeft.2 + 1) % u32 = n.lowRight.2 - n.upLeft.2 + 1 :=
      Nat.mod_eq_of_lt (by simp [u32]; omega)
    have key : ∀ a P : Nat, a * (P % u32) % u32 = a * P % u32 := by
      intro a P
      simp [Nat.mul_mod]
    have keyadd : ∀ c S : Nat, (c % u32 + S % u32) % u32 = (c + S) % u32 := by
      intro c S
      simp [Nat.add_mod]
    simp only [addColor, e1, e2, e3, e4, umul, uadd, sumRO, sumGO, sumBO, areaO, area, m1, m2]
    rw [key, key, key, keyadd, keyadd, keyadd, keyadd]

/-- The fallback of CalculateAverageColor when the accumulated pixel count is
zero: the NW child's average if present, else the default pixel. -/
def nwAvgOrDefault (nw : ONode) : RGBAPixel :=
  match nw with
  | .some n => n.avg
  | .none => defaultPix

theorem calcAvg_spec (nw ne sw se : ONode) (h1 : rectSmallO nw) (h2 : rectSmallO ne)
    (h3 : rectSmallO sw) (h4 : rectSmallO se) :
    calculateAverageColor nw ne sw se =
      if 0 < (areaO nw + areaO ne + areaO sw + areaO se) % u32 then
        { defaultPix with
          r := (sumRO nw + sumRO ne + sumRO sw + sumRO se) % u32 /
               ((areaO nw + areaO ne + areaO sw + areaO se) % u32),
          g := (sumGO nw + sumGO ne + sumGO sw + sumGO se) % u32 /
               ((areaO nw + areaO ne + areaO sw + areaO se) % u32),
          b := (sumBO nw + sumBO ne + sumBO sw + sumBO se) % u32 /
               ((areaO nw + areaO ne + areaO sw + areaO se) % u32) }
      else nwAvgOrDefault nw := by
  have h0 : ((0 : Nat), (0 : Nat), (0 : Nat), (0 : Nat)) =
      ((0 : Nat) % u32, (0 : Nat) % u32, (0 : Nat) % u32, (0 : Nat) % u32) := by
    simp [u32]
  unfold calculateAverageColor
  rw [h0, addColor_spec nw h1, addColor_spec ne h2, addColor_spec sw h3, addColor_spec se h4]
  simp only [Nat.zero_add]
  cases nw <;> rfl

theorem buildNode_rect {img : Image} {fuel : Nat} {ul lr : Nat × Nat} {n : Node}
    (h : buildNode fuel img ul lr = .some n) :
    n.upLeft = ul ∧ n.lowRight = lr := by
  cases fuel with
  | zero => simp [buildNode] at h
  | succ fuel =>
    simp only [buildNode] at h
    split at h
    · injection h with h2
      subst h2
      exact ⟨rfl, rfl⟩
    · injection h with h2
      subst h2
      exact ⟨rfl, rfl⟩

theorem buildNode_not_leaf {img : Image} {fuel : Nat} {ul lr : Nat × Nat} {n : Node}
    (hm : (lr.1 - ul.1) + (lr.2 - ul.2) < fuel) (hne : ul ≠ lr)
    (hx : ul.1 ≤ lr.1) (hy : ul.2 ≤ lr.2)
    (hbx : lr.1 < 2147483648) (hby : lr.2 < 2147483648)
    (h : buildNode fuel img ul lr = .some n) : isLeafN n = false := by
  cases fuel with
  | zero => exact absurd hm (Nat.not_lt_zero _)
  | succ fuel =>
    have hm1 : 1 ≤ (lr.1 - ul.1) + (lr.2 - ul.2) := by
      rcases Nat.lt_or_ge ul.1 lr.1 with h0 | h0
      · omega
      · rcases Nat.lt_or_ge ul.2 lr.2 with h2 | h2
        · omega
        · exact absurd (Prod.ext (by omega) (by omega)) hne
    have hfuel : 1 ≤ fuel := by omega
    have hsx : uadd ul.1 lr.1 = ul.1 + lr.1 := uadd_eq_of_lt _ _ (by simp [u32]; omega)
    have hsy : uadd ul.2 lr.2 = ul.2 + lr.2 := uadd_eq_of_lt _ _ (by simp [u32]; omega)
    simp only [buildNode, if_neg hne, hsx, hsy] at h
    obtain ⟨n0, hn0⟩ := buildNode_isSome img fuel hfuel ul ((ul.1 + lr.1) / 2, (ul.2 + lr.2) / 2)
    rw [if_pos ⟨by omega, by omega⟩, hn0] at h
    injection h with h2
    subst h2
    exact isLeafN_of_nw_some _ _ _ _ _ _ _

/-- Every node reachable in a tree contains itself. -/
theorem self_mem_nodesN (n : Node) : n ∈ nodesN n := by
  cases n with
  | mk ul lr avg nw ne sw se =>
    simp [nodesN]

/-- Facts holding of every node of a tree built over the rectangle (ul, lr):
its rectangle is increasing and inside (ul, lr); and if it is internal, its
stored average is CalculateAverageColor of its own children, its NW child is
present, its children's areas partition its area, and its stored alpha is the
default-constructed alpha. -/
def nodeGood (ul lr : Nat × Nat) (n : Node) : Prop :=
  (ul.1 ≤ n.upLeft.1 ∧ n.upLeft.1 ≤ n.lowRight.1 ∧ n.lowRight.1 ≤ lr.1 ∧
   ul.2 ≤ n.upLeft.2 ∧ n.upLeft.2 ≤ n.lowRight.2 ∧ n.lowRight.2 ≤ lr.2) ∧
  (isLeafN n = false →
    n.avg = calculateAverageColor n.nw n.ne n.sw n.se ∧
    n.nw ≠ ONode.none ∧
    areaSum n = area n ∧
    n.avg.a = defaultPix.a)

theorem nodeGood_mono {a b ul lr : Nat × Nat} {n : Node} (h : nodeGood a b n)
    (h1 : ul.1 ≤ a.1) (h2 : b.1 ≤ lr.1) (h3 : ul.2 ≤ a.2) (h4 : b.2 ≤ lr.2) :
    nodeGood ul lr n := by
  obtain ⟨⟨g1, g2, g3, g4, g5, g6⟩, hint⟩ := h
  exact ⟨⟨by omega, g2, by omega, by omega, g5, by omega⟩, hint⟩

/-- Shape of the induction hypothesis of `nodes_buildNode_good`. -/
def NodesGoodIH (img : Image) (fuel : Nat) : Prop :=
  ∀ ul lr : Nat × Nat, (lr.1 - ul.1) + (lr.2 - ul.2) < fuel →
    ul.1 ≤ lr.1 → ul.2 ≤ lr.2 → lr.1 < 2147483648 → lr.2 < 2147483648 →
    ∀ n ∈ nodesO (buildNode fuel img ul lr), nodeGood ul lr n

theorem nodes_layer (img : Image) (fuel : Nat) (ih : NodesGoodIH img fuel)
    (P : Prop) [Decidable P] (a b : Nat × Nat)
    (hgood : P → (b.1 - a.1) + (b.2 - a.2) < fuel ∧ a.1 ≤ b.1 ∧ a.2 ≤ b.2 ∧
      b.1 < 2147483648 ∧ b.2 < 2147483648) :
    ∀ n ∈ nodesO (if P then buildNode fuel img a b else .none), nodeGood a b n := by
  by_cases hp : P
  · rw [if_pos hp]
    obtain ⟨q1, q2, q3, q4, q5⟩ := hgood hp
    exact ih a b q1 q2 q3 q4 q5
  · rw [if_neg hp]
    intro n hn
    simp [nodesO] at hn

theorem rectSmallO_of_layer (img : Image) (fuel : Nat) (P : Prop) [Decidable P]
    (a b : Nat × Nat)
    (h : P → a.1 ≤ b.1 ∧ a.2 ≤ b.2 ∧ b.1 < 2147483648 ∧ b.2 < 2147483648) :
    rectSmallO (if P then buildNode fuel img a b else .none) := by
  by_cases hp : P
  · rw [if_pos hp]
    cases hE : buildNode fuel img a b with
    | none => simp [rectSmallO]
    | some m =>
      obtain ⟨r1, r2⟩ := buildNode_rect hE
      obtain ⟨q1, q2, q3, q4⟩ := h hp
      simp [rectSmallO, r1, r2]
      exact ⟨q1, q2, q3, q4⟩
  · rw [if_neg hp]
    simp [rectSmallO]

theorem nodes_buildNode_good (img : Image) : ∀ fuel : Nat, NodesGoodIH img fuel := by
  intro fuel
  induction fuel with
  | zero =>
    intro ul lr hm
    omega
  | succ fuel ih =>
    intro ul lr hm hx hy hbx hby n hn
    by_cases heq : ul = lr
    · subst heq
      simp only [buildNode, eq_self_iff_true, if_true, nodesO, nodesN, List.append_nil,
        List.mem_cons, List.not_mem_nil, or_false] at hn
      subst hn
      refine ⟨by simp [Node.upLeft, Node.lowRight], ?_⟩
      intro habs
      simp [isLeafN, ONode.isNull, Node.nw, Node.ne, Node.sw, Node.se] at habs
    · have hm1 : 1 ≤ (lr.1 - ul.1) + (lr.2 - ul.2) := by
        rcases Nat.lt_or_ge ul.1 lr.1 with h0 | h0
        · omega
        · rcases Nat.lt_or_ge ul.2 lr.2 with h2 | h2
          · omega
          · exact absurd (Prod.ext (by omega) (by omega)) heq
      have hfuel : 1 ≤ fuel := by omega
      have hsx : uadd ul.1 lr.1 = ul.1 + lr.1 := uadd_eq_of_lt _ _ (by simp [u32]; omega)
      have hsy : uadd ul.2 lr.2 = ul.2 + lr.2 := uadd_eq_of_lt _ _ (by simp [u32]; omega)
      simp only [buildNode, if_neg heq, hsx, hsy] at hn
      set midX := (ul.1 + lr.1) / 2 with hmidX
      set midY := (ul.2 + lr.2) / 2 with hmidY
      have hmx1 : ul.1 ≤ midX := by omega
      have hmx2 : midX ≤ lr.1 := by omega
      have hmy1 : ul.2 ≤ midY := by omega
      have hmy2 : midY ≤ lr.2 := by omega
      have hne1 : uadd midX 1 = midX + 1 := uadd_eq_of_lt _ _ (by simp [u32]; omega)
      have hne2 : uadd midY 1 = midY + 1 := uadd_eq_of_lt _ _ (by simp [u32]; omega)
      rw [hne1, hne2] at hn
      simp only [nodesO, nodesN, List.mem_cons, List.mem_append] at hn
      rcases hn with rfl | (((hA | hB) | hC) | hD)
      · -- the root node of this rectangle
        obtain ⟨n0, hn0⟩ := buildNode_isSome img fuel hfuel ul (midX, midY)
        have hnwT : (if ul.1 ≤ midX ∧ ul.2 ≤ midY then buildNode fuel img ul (midX, midY)
            else ONode.none) = .some n0 := by rw [if_pos ⟨hmx1, hmy1⟩, hn0]
        have hRSnw : rectSmallO (if ul.1 ≤ midX ∧ ul.2 ≤ midY then
            buildNode fuel img ul (midX, midY) else ONode.none) :=
          rectSmallO_of_layer img fuel _ _ _ (fun _ => ⟨hmx1, hmy1, by omega, by omega⟩)
        have hRSne : rectSmallO (if midX + 1 ≤ lr.1 ∧ ul.2 ≤ midY then
            buildNode fuel img (midX + 1, ul.2) (lr.1, midY) else ONode.none) :=
          rectSmallO_of_layer img fuel _ _ _ (fun hp => ⟨hp.1, hmy1, by omega, by omega⟩)
        have hRSsw : rectSmallO (if ul.1 ≤ midX ∧ midY + 1 ≤ lr.2 then
            buildNode fuel img (ul.1, midY + 1) (midX, lr.2) else ONode.none) :=
          rectSmallO_of_layer img fuel _ _ _ (fun hp => ⟨hmx1, hp.2, by omega, by omega⟩)
        have hRSse : rectSmallO (if midX + 1 ≤ lr.1 ∧ midY + 1 ≤ lr.2 then
            buildNode fuel img (midX + 1, midY + 1) lr else ONode.none) :=
          rectSmallO_of_layer img fuel _ _ _ (fun hp => ⟨by omega, by omega, by omega, by omega⟩)
        have hANW : areaO (if ul.1 ≤ midX ∧ ul.2 ≤ midY then
            buildNode fuel img ul (midX, midY) else ONode.none) =
            (midX - ul.1 + 1) * (midY - ul.2 + 1) := by
          rw [hnwT]
          obtain ⟨r1, r2⟩ := buildNode_rect hn0
          simp [areaO, area, r1, r2]
        have hANE : areaO (if midX + 1 ≤ lr.1 ∧ ul.2 ≤ midY then
            buildNode fuel img (midX + 1, ul.2) (lr.1, midY) else ONode.none) =
            (lr.1 - midX) * (midY - ul.2 + 1) := by
          by_cases hp : midX + 1 ≤ lr.1
          · rw [if_pos ⟨hp, hmy1⟩]
            obtain ⟨n1, hn1⟩ := buildNode_isSome img fuel hfuel (midX + 1, ul.2) (lr.1, midY)
            rw [hn1]
            obtain ⟨r1, r2⟩ := buildNode_rect hn1
            simp [areaO, area, r1, r2]
            omega
          · rw [if_neg (fun h => hp h.1)]
            have h0 : lr.1 - midX = 0 := by omega
            simp [areaO, h0]
        have hASW : areaO (if ul.1 ≤ midX ∧ midY + 1 ≤ lr.2 then
            buildNode fuel img (ul.1, midY + 1) (midX, lr.2) else ONode.none) =
            (midX - ul.1 + 1) * (lr.2 - midY) := by
          by_cases hp : midY + 1 ≤ lr.2
          · rw [if_pos ⟨hmx1, hp⟩]
            obtain ⟨n1, hn1⟩ := buildNode_isSome img fuel hfuel (ul.1, midY + 1) (midX, lr.2)
            rw [hn1]
            obtain ⟨r1, r2⟩ := buildNode_rect hn1
            simp [areaO, area, r1, r2]
            omega
          · rw [if_neg (fun h => hp h.2)]
            have h0 : lr.2 - midY = 0 := by omega
            simp [areaO, h0]
        have hASE : areaO (if midX + 1 ≤ lr.1 ∧ midY + 1 ≤ lr.2 then
            buildNode fuel img (midX + 1, midY + 1) lr else ONode.none) =
            (lr.1 - midX) * (lr.2 - midY) := by
          by_cases hp : midX + 1 ≤ lr.1 ∧ midY + 1 ≤ lr.2
          · rw [if_pos hp]
            obtain ⟨n1, hn1⟩ := buildNode_isSome img fuel hfuel (midX + 1, midY + 1) lr
            rw [hn1]
            obtain ⟨r1, r2⟩ := buildNode_rect hn1
            simp [areaO, area, r1, r2]
            have e1 : lr.1 - (midX + 1) + 1 = lr.1 - midX := by omega
            have e2 : lr.2 - (midY + 1) + 1 = lr.2 - midY := by omega
            rw [e1, e2]
          · rw [if_neg hp]
            by_cases h0 : midX + 1 ≤ lr.1
            · have hnb : ¬ midY + 1 ≤ lr.2 := fun hb => hp ⟨h0, hb⟩
              have e0 : lr.2 - midY = 0 := by omega
              simp [areaO, e0]
            · have e0 : lr.1 - midX = 0 := by omega
              simp [areaO, e0]
        have hsumArea : (midX - ul.1 + 1) * (midY - ul.2 + 1) +
            (lr.1 - midX) * (midY - ul.2 + 1) +
            (midX - ul.1 + 1) * (lr.2 - midY) +
            (lr.1 - midX) * (lr.2 - midY) =
            (lr.1 - ul.1 + 1) * (lr.2 - ul.2 + 1) := by
          have e1 : lr.1 - ul.1 + 1 = (midX - ul.1 + 1) + (lr.1 - midX) := by omega
          have e2 : lr.2 - ul.2 + 1 = (midY - ul.2 + 1) + (lr.2 - midY) := by omega
          rw [e1, e2]
          ring
        refine ⟨by simp [Node.upLeft, Node.lowRight]; omega, ?_⟩
        intro hleaf
        refine ⟨rfl, ?_, ?_, ?_⟩
        · simp only [Node.nw]
          rw [hnwT]
          simp
        · simp only [areaSum, area, Node.nw, Node.ne, Node.sw, Node.se,
            Node.upLeft, Node.lowRight]
          rw [hANW, hANE, hASW, hASE]
          exact hsumArea
        · simp only [Node.avg]
          rw [calcAvg_spec _ _ _ _ hRSnw hRSne hRSsw hRSse]
          by_cases hpc : 0 < (areaO (if ul.1 ≤ midX ∧ ul.2 ≤ midY then
                buildNode fuel img ul (midX, midY) else ONode.none) +
              areaO (if midX + 1 ≤ lr.1 ∧ ul.2 ≤ midY then
                buildNode fuel img (midX + 1, ul.2) (lr.1, midY) else ONode.none) +
              areaO (if ul.1 ≤ midX ∧ midY + 1 ≤ lr.2 then
                buildNode fuel img (ul.1, midY + 1) (midX, lr.2) else ONode.none) +
              areaO (if midX + 1 ≤ lr.1 ∧ midY + 1 ≤ lr.2 then
                buildNode fuel img (midX + 1, midY + 1) lr else ONode.none)) % u32
          · rw [if_pos hpc]
          · rw [if_neg hpc]
            rw [hANW, hANE, hASW, hASE, hsumArea] at hpc
            have hzero : ((lr.1 - ul.1 + 1) * (lr.2 - ul.2 + 1)) % u32 = 0 :=
              Nat.eq_zero_of_not_pos hpc
            by_cases hsmall : lr.1 ≤ ul.1 + 1 ∧ lr.2 ≤ ul.2 + 1
            · exfalso
              have hle : (lr.1 - ul.1 + 1) * (lr.2 - ul.2 + 1) ≤ 4 := by
                have h4 := Nat.mul_le_mul (show lr.1 - ul.1 + 1 ≤ 2 by omega)
                  (show lr.2 - ul.2 + 1 ≤ 2 by omega)
                simpa using h4
              have hge : 1 ≤ (lr.1 - ul.1 + 1) * (lr.2 - ul.2 + 1) :=
                Nat.one_le_iff_ne_zero.mpr (Nat.mul_ne_zero (by omega) (by omega))
              have hlt : (lr.1 - ul.1 + 1) * (lr.2 - ul.2 + 1) < u32 :=
                lt_of_le_of_lt hle (by norm_num [u32])
              rw [Nat.mod_eq_of_lt hlt] at hzero
              rw [hzero] at hge
              exact absurd hge (by norm_num)
            · have hneq : ul ≠ (midX, midY) := by
                intro hcontra
                have e1 := congrArg Prod.fst hcontra
                have e2 := congrArg Prod.snd hcontra
                simp at e1 e2
                omega
              have hn0leaf : isLeafN n0 = false :=
                @buildNode_not_leaf img fuel ul (midX, midY) n0 (by simp; omega) hneq
                  (by simp; omega) (by simp; omega) (by simp; omega) (by simp; omega) hn0
              have hn0good : nodeGood ul (midX, midY) n0 := by
                refine ih ul (midX, midY) (by simp; omega) (by simp; omega) (by simp; omega)
                  (by simp; omega) (by simp; omega) n0 ?_
                rw [hn0]
                simp only [nodesO]
                exact self_mem_nodesN n0
              rw [hnwT]
              simp only [nwAvgOrDefault]
              exact (hn0good.2 hn0leaf).2.2.2
      · exact nodeGood_mono (nodes_layer img fuel ih (ul.1 ≤ midX ∧ ul.2 ≤ midY)
          ul (midX, midY)
          (fun _ => ⟨show (midX - ul.1) + (midY - ul.2) < fuel by omega, hmx1, hmy1,
            show midX < 2147483648 by omega, show midY < 2147483648 by omega⟩) n hA)
          (le_refl _) hmx2 (le_refl _) hmy2
      · exact nodeGood_mono (nodes_layer img fuel ih (midX + 1 ≤ lr.1 ∧ ul.2 ≤ midY)
          (midX + 1, ul.2) (lr.1, midY)
          (fun hp => ⟨show (lr.1 - (midX + 1)) + (midY - ul.2) < fuel by omega,
            show midX + 1 ≤ lr.1 from hp.1, show ul.2 ≤ midY from hmy1,
            show lr.1 < 2147483648 from hbx, show midY < 2147483648 by omega⟩) n hB)
          (show ul.1 ≤ midX + 1 by omega) (show lr.1 ≤ lr.1 by omega)
          (show ul.2 ≤ ul.2 by omega) (show midY ≤ lr.2 from hmy2)
      · exact nodeGood_mono (nodes_layer img fuel ih (ul.1 ≤ midX ∧ midY + 1 ≤ lr.2)
          (ul.1, midY + 1) (midX, lr.2)
          (fun hp => ⟨show (midX - ul.1) + (lr.2 - (midY + 1)) < fuel by omega,
            show ul.1 ≤ midX from hmx1, show midY + 1 ≤ lr.2 from hp.2,
            show midX < 2147483648 by omega, show lr.2 < 2147483648 from hby⟩) n hC)
          (show ul.1 ≤ ul.1 by omega) (show midX ≤ lr.1 from hmx2)
          (show ul.2 ≤ midY + 1 by omega) (show lr.2 ≤ lr.2 by omega)
      · exact nodeGood_mono (nodes_layer img fuel ih (midX + 1 ≤ lr.1 ∧ midY + 1 ≤ lr.2)
          (midX + 1, midY + 1) lr
          (fun hp => ⟨show (lr.1 - (midX + 1)) + (lr.2 - (midY + 1)) < fuel by omega,
            show midX + 1 ≤ lr.1 from hp.1, show midY + 1 ≤ lr.2 from hp.2, hbx, hby⟩) n hD)
          (show ul.1 ≤ midX + 1 by omega) (le_refl _)
          (show ul.2 ≤ midY + 1 by omega) (le_refl _)

theorem mem_nodes_child (t : ONode) : ∀ n m : Node, n ∈ nodesO t →
    (n.nw = .some m ∨ n.ne = .some m ∨ n.sw = .some m ∨ n.se = .some m) →
    m ∈ nodesO t := by
  refine ONode.rec
    (motive_1 := fun k => ∀ n m : Node, n ∈ nodesN k →
      (n.nw = .some m ∨ n.ne = .some m ∨ n.sw = .some m ∨ n.se = .some m) →
      m ∈ nodesN k)
    (motive_2 := fun o => ∀ n m : Node, n ∈ nodesO o →
      (n.nw = .some m ∨ n.ne = .some m ∨ n.sw = .some m ∨ n.se = .some m) →
      m ∈ nodesO o)
    ?_ ?_ ?_ t
  · intro ul lr avg nw ne sw se ihnw ihne ihsw ihse n m hn hrel
    simp only [nodesN, List.mem_cons, List.mem_append] at hn ⊢
    rcases hn with rfl | (((hA | hB) | hC) | hD)
    · simp only [Node.nw, Node.ne, Node.sw, Node.se] at hrel
      rcases hrel with h | h | h | h
      · refine Or.inr (Or.inl (Or.inl (Or.inl ?_)))
        rw [h]
        exact self_mem_nodesN m
      · refine Or.inr (Or.inl (Or.inl (Or.inr ?_)))
        rw [h]
        exact self_mem_nodesN m
      · refine Or.inr (Or.inl (Or.inr ?_))
        rw [h]
        exact self_mem_nodesN m
      · refine Or.inr (Or.inr ?_)
        rw [h]
        exact self_mem_nodesN m
    · exact Or.inr (Or.inl (Or.inl (Or.inl (ihnw n m hA hrel))))
    · exact Or.inr (Or.inl (Or.inl (Or.inr (ihne n m hB hrel))))
    · exact Or.inr (Or.inl (Or.inr (ihsw n m hC hrel)))
    · exact Or.inr (Or.inr (ihse n m hD hrel))
  · intro n m hn
    simp [nodesO] at hn
  · intro k ih n m hn hrel
    exact ih n m hn hrel

theorem build_root_nodes_good (img : Image) (W H : Nat) (hW : 0 < W) (hH : 0 < H)
    (hbW : W < 2147483648) (hbH : H < 2147483648) :
    ∀ n ∈ nodesO (QTreeM.build img W H).root, nodeGood (0, 0) (W - 1, H - 1) n := by
  have e1 : usub W 1 = W - 1 := usub_eq_of_le _ _ (by omega) (by simp [u32]; omega)
  have e2 : usub H 1 = H - 1 := usub_eq_of_le _ _ (by omega) (by simp [u32]; omega)
  intro n hn
  simp only [QTreeM.build, e1, e2] at hn
  exact nodes_buildNode_good img (W + H) (0, 0) (W - 1, H - 1)
    (by simp; omega) (by simp) (by simp) (by simp; omega) (by simp; omega) n hn

theorem rectSmallO_child {img : Image} {W H : Nat} (hW : 0 < W) (hH : 0 < H)
    (hbW : W < 2147483648) (hbH : H < 2147483648) {n : Node}
    (hmem : n ∈ nodesO (QTreeM.build img W H).root) :
    rectSmallO n.nw ∧ rectSmallO n.ne ∧ rectSmallO n.sw ∧ rectSmallO n.se := by
  have key : ∀ o : ONode, (n.nw = o ∨ n.ne = o ∨ n.sw = o ∨ n.se = o) → rectSmallO o := by
    intro o ho
    cases o with
    | none => simp [rectSmallO]
    | some m =>
      have hm : m ∈ nodesO (QTreeM.build img W H).root := by
        refine mem_nodes_child _ n m hmem ?_
        rcases ho with h | h | h | h
        · exact Or.inl h
        · exact Or.inr (Or.inl h)
        · exact Or.inr (Or.inr (Or.inl h))
        · exact Or.inr (Or.inr (Or.inr h))
      obtain ⟨⟨g1, g2, g3, g4, g5, g6⟩, _⟩ := build_root_nodes_good img W H hW hH hbW hbH m hm
      simp only [rectSmallO]
      simp at g3 g6
      exact ⟨g2, g5, by omega, by omega⟩
  exact ⟨key n.nw (Or.inl rfl), key n.ne (Or.inr (Or.inl rfl)),
    key n.sw (Or.inr (Or.inr (Or.inl rfl))), key n.se (Or.inr (Or.inr (Or.inr rfl)))⟩

theorem areaSum_pos {n : Node} (hnw : n.nw ≠ ONode.none) : 0 < areaSum n := by
  cases hE : n.nw with
  | none => exact absurd hE hnw
  | some m =>
    have : 0 < area m := Nat.pos_of_ne_zero (Nat.mul_ne_zero (by omega) (by omega))
    simp only [areaSum, hE, areaO]
    omega

theorem avg_mod_quotient {img : Image} {W H : Nat} (hW : 0 < W) (hH : 0 < H)
    (hbW : W < 2147483648) (hbH : H < 2147483648) {n : Node}
    (hmem : n ∈ nodesO (QTreeM.build img W H).root) (hleaf : isLeafN n = false)
    (hpos : 0 < areaSum n % u32) :
    n.avg.r = sumR n % u32 / (areaSum n % u32) ∧
    n.avg.g = sumG n % u32 / (areaSum n % u32) ∧
    n.avg.b = sumB n % u32 / (areaSum n % u32) := by
  obtain ⟨_, hint⟩ := build_root_nodes_good img W H hW hH hbW hbH n hmem
  obtain ⟨havg, hnw, harea, halpha⟩ := hint hleaf
  obtain ⟨s1, s2, s3, s4⟩ := rectSmallO_child hW hH hbW hbH hmem
  rw [calcAvg_spec _ _ _ _ s1 s2 s3 s4] at havg
  have hsum : areaO n.nw + areaO n.ne + areaO n.sw + areaO n.se = areaSum n := rfl
  have hsr : sumRO n.nw + sumRO n.ne + sumRO n.sw + sumRO n.se = sumR n := rfl
  have hsg : sumGO n.nw + sumGO n.ne + sumGO n.sw + sumGO n.se = sumG n := rfl
  have hsb : sumBO n.nw + sumBO n.ne + sumBO n.sw + sumBO n.se = sumB n := rfl
  rw [hsum, hsr, hsg, hsb, if_pos hpos] at havg
  rw [havg]
  exact ⟨rfl, rfl, rfl⟩

theorem avg_exact_mean {img : Image} {W H : Nat} (hW : 0 < W) (hH : 0 < H)
    (hbW : W < 2147483648) (hbH : H < 2147483648) {n : Node}
    (hmem : n ∈ nodesO (QTreeM.build img W H).root) (hleaf : isLeafN n = false)
    (ha : areaSum n < u32) (hr : sumR n < u32) (hg : sumG n < u32) (hb : sumB n < u32) :
    n.avg.r = sumR n / areaSum n ∧ n.avg.g = sumG n / areaSum n ∧
    n.avg.b = sumB n / areaSum n := by
  obtain ⟨_, hint⟩ := build_root_nodes_good img W H hW hH hbW hbH n hmem
  obtain ⟨_, hnw, _, _⟩ := hint hleaf
  have hpos : 0 < areaSum n := areaSum_pos hnw
  have h0 := avg_mod_quotient hW hH hbW hbH hmem hleaf
    (by rw [Nat.mod_eq_of_lt ha]; exact hpos)
  rw [Nat.mod_eq_of_lt ha, Nat.mod_eq_of_lt hr, Nat.mod_eq_of_lt hg, Nat.mod_eq_of_lt hb] at h0
  exact h0

/-- Claim C2 (amended): for every internal node created during Build, as long
as the per-channel weighted sums and the total child area are below 2^32 (the
claim as stated fails above that, see the counterexample), the stored average
equals, per channel, the integer-truncated area-weighted mean of the direct
children's stored averages. -/
theorem C2_weighted_average_amended (img : Image) (W H : Nat) (hW : 0 < W) (hH : 0 < H)
    (hbW : W < 2147483648) (hbH : H < 2147483648) (n : Node)
    (hmem : n ∈ nodesO (QTreeM.build img W H).root) (hleaf : isLeafN n = false)
    (ha : areaSum n < u32) (hr : sumR n < u32) (hg : sumG n < u32) (hb : sumB n < u32) :
    n.avg.r = sumR n / areaSum n ∧ n.avg.g = sumG n / areaSum n ∧
    n.avg.b = sumB n / areaSum n :=
  avg_exact_mean hW hH hbW hbH hmem hleaf ha hr hg hb

/-- Witness for the amended C2 at the root of the tree built from img2. -/
theorem C2_weighted_average_amended_witness :
    rootN (QTreeM.build img2 2 2) ∈ nodesO (QTreeM.build img2 2 2).root ∧
    isLeafN (rootN (QTreeM.build img2 2 2)) = false ∧
    (rootN (QTreeM.build img2 2 2)).avg.r =
      sumR (rootN (QTreeM.build img2 2 2)) / areaSum (rootN (QTreeM.build img2 2 2)) :=
  ⟨by decide, by decide,
   (C2_weighted_average_amended img2 2 2 (by decide) (by decide) (by decide) (by decide)
     (rootN (QTreeM.build img2 2 2)) (by decide) (by decide) (by decide) (by decide)
     (by decide) (by decide)).1⟩

/-- Claim C9: for every internal node created during Build, the alpha channel
of the stored average is the default-constructed RGBAPixel alpha, regardless
of the children's (or the image's) alpha values. -/
theorem C9_internal_alpha_default (img : Image) (W H : Nat) (hW : 0 < W) (hH : 0 < H)
    (hbW : W < 2147483648) (hbH : H < 2147483648) (n : Node)
    (hmem : n ∈ nodesO (QTreeM.build img W H).root) (hleaf : isLeafN n = false) :
    n.avg.a = defaultPix.a :=
  ((build_root_nodes_good img W H hW hH hbW hbH n hmem).2 hleaf).2.2.2

/-- Witness for C9: an image with non-default alpha 7 everywhere still yields
the default alpha on the root's stored average. -/
def imgAlpha7 : Image := fun _ _ => ⟨1, 2, 3, 7⟩

theorem C9_internal_alpha_default_witness :
    rootN (QTreeM.build imgAlpha7 2 2) ∈ nodesO (QTreeM.build imgAlpha7 2 2).root ∧
    isLeafN (rootN (QTreeM.build imgAlpha7 2 2)) = false ∧
    (rootN (QTreeM.build imgAlpha7 2 2)).avg.a = defaultPix.a :=
  ⟨by decide, by decide,
   C9_internal_alpha_default imgAlpha7 2 2 (by decide) (by decide) (by decide) (by decide)
     (rootN (QTreeM.build imgAlpha7 2 2)) (by decide) (by decide)⟩

/-- Whether a possibly-null child's stored channels are all at most 255 (as
holds for genuine 8-bit colors). -/
def chanLe255 (o : ONode) : Bool :=
  match o with
  | .none => true
  | .some m => decide (m.avg.r ≤ 255) && decide (m.avg.g ≤ 255) && decide (m.avg.b ≤ 255)

theorem sumRO_le_of_chan {o : ONode} (h : chanLe255 o = true) :
    sumRO o ≤ 255 * areaO o ∧ sumGO o ≤ 255 * areaO o ∧ sumBO o ≤ 255 * areaO o := by
  cases o with
  | none => simp [sumRO, sumGO, sumBO, areaO]
  | some m =>
    simp only [chanLe255, Bool.and_eq_true, decide_eq_true_eq] at h
    obtain ⟨⟨h1, h2⟩, h3⟩ := h
    exact ⟨Nat.mul_le_mul_right _ h1, Nat.mul_le_mul_right _ h2, Nat.mul_le_mul_right _ h3⟩

/-- Claim C10: during Build, the per-channel weighted sums and the pixel count
are accumulated in unsigned-int arithmetic, wrapping modulo 2^32: the stored
channels are always the quotients of the wrapped sums by the wrapped count
(when the wrapped count is nonzero), and they equal the mathematically
truncated weighted mean whenever 255 times the region pixel count stays below
2^32 (with 8-bit child channels). -/
theorem C10_average_modular_quotient (img : Image) (W H : Nat) (hW : 0 < W) (hH : 0 < H)
    (hbW : W < 2147483648) (hbH : H < 2147483648) (n : Node)
    (hmem : n ∈ nodesO (QTreeM.build img W H).root) (hleaf : isLeafN n = false) :
    (0 < areaSum n % u32 →
      n.avg.r = sumR n % u32 / (areaSum n % u32) ∧
      n.avg.g = sumG n % u32 / (areaSum n % u32) ∧
      n.avg.b = sumB n % u32 / (areaSum n % u32)) ∧
    (255 * areaSum n < u32 →
      chanLe255 n.nw = true → chanLe255 n.ne = true →
      chanLe255 n.sw = true → chanLe255 n.se = true →
      n.avg.r = sumR n / areaSum n ∧ n.avg.g = sumG n / areaSum n ∧
      n.avg.b = sumB n / areaSum n) := by
  constructor
  · intro hpos
    exact avg_mod_quotient hW hH hbW hbH hmem hleaf hpos
  · intro h255 c1 c2 c3 c4
    obtain ⟨r1nw, g1nw, b1nw⟩ := sumRO_le_of_chan c1
    obtain ⟨r1ne, g1ne, b1ne⟩ := sumRO_le_of_chan c2
    obtain ⟨r1sw, g1sw, b1sw⟩ := sumRO_le_of_chan c3
    obtain ⟨r1se, g1se, b1se⟩ := sumRO_le_of_chan c4
    have hsumr : sumR n ≤ 255 * areaSum n := by
      simp only [sumR, areaSum]
      have e0 : 255 * (areaO n.nw + areaO n.ne + areaO n.sw + areaO n.se) =
          255 * areaO n.nw + 255 * areaO n.ne + 255 * areaO n.sw + 255 * areaO n.se := by
        ring
      omega
    have hsumg : sumG n ≤ 255 * areaSum n := by
      simp only [sumG, areaSum]
      have e0 : 255 * (areaO n.nw + areaO n.ne + areaO n.sw + areaO n.se) =
          255 * areaO n.nw + 255 * areaO n.ne + 255 * areaO n.sw + 255 * areaO n.se := by
        ring
      omega
    have hsumb : sumB n ≤ 255 * areaSum n := by
      simp only [sumB, areaSum]
      have e0 : 255 * (areaO n.nw + areaO n.ne + areaO n.sw + areaO n.se) =
          255 * areaO n.nw + 255 * areaO n.ne + 255 * areaO n.sw + 255 * areaO n.se := by
        ring
      omega
    have harea : areaSum n ≤ 255 * areaSum n := Nat.le_mul_of_pos_left _ (by omega)
    exact avg_exact_mean hW hH hbW hbH hmem hleaf (by omega) (by omega) (by omega) (by omega)

/-- Witness for C10 at the root of the tree built from img2. -/
theorem C10_average_modular_quotient_witness :
    (0 : Nat) < areaSum (rootN (QTreeM.build img2 2 2)) % u32 ∧
    (rootN (QTreeM.build img2 2 2)).avg.r =
      sumR (rootN (QTreeM.build img2 2 2)) % u32 /
        (areaSum (rootN (QTreeM.build img2 2 2)) % u32) ∧
    (rootN (QTreeM.build img2 2 2)).avg.r =
      sumR (rootN (QTreeM.build img2 2 2)) / areaSum (rootN (QTreeM.build img2 2 2)) :=
  ⟨by decide,
   ((C10_average_modular_quotient img2 2 2 (by decide) (by decide) (by decide) (by decide)
     (rootN (QTreeM.build img2 2 2)) (by decide) (by decide)).1 (by decide)).1,
   ((C10_average_modular_quotient img2 2 2 (by decide) (by decide) (by decide) (by decide)
     (rootN (QTreeM.build img2 2 2)) (by decide) (by decide)).2 (by decide) (by decide)
     (by decide) (by decide) (by decide)).1⟩

/-- The uniform image whose every pixel is gray 255 (all channels maximal). -/
def const255 : Image := fun _ _ => gray 255

theorem buildNode_const255 : ∀ fuel : Nat, ∀ ul lr : Nat × Nat,
    (lr.1 - ul.1) + (lr.2 - ul.2) < fuel →
    ul.1 ≤ lr.1 → ul.2 ≤ lr.2 → lr.1 < 2147483648 → lr.2 < 2147483648 →
    255 * ((lr.1 - ul.1 + 1) * (lr.2 - ul.2 + 1)) < u32 →
    ∃ n, buildNode fuel const255 ul lr = .some n ∧
      n.upLeft = ul ∧ n.lowRight = lr ∧ n.avg.r = 255 := by
  intro fuel
  induction fuel with
  | zero =>
    intro ul lr hm
    omega
  | succ fuel ih =>
    intro ul lr hm hx hy hbx hby hbound
    by_cases heq : ul = lr
    · subst heq
      exact ⟨.mk ul ul (const255 ul.1 ul.2) .none .none .none .none,
        by simp [buildNode], rfl, rfl, rfl⟩
    · have hm1 : 1 ≤ (lr.1 - ul.1) + (lr.2 - ul.2) := by
        rcases Nat.lt_or_ge ul.1 lr.1 with h0 | h0
        · omega
        · rcases Nat.lt_or_ge ul.2 lr.2 with h2 | h2
          · omega
          · exact absurd (Prod.ext (by omega) (by omega)) heq
      have hfuel : 1 ≤ fuel := by omega
      have hsx : uadd ul.1 lr.1 = ul.1 + lr.1 := uadd_eq_of_lt _ _ (by simp [u32]; omega)
      have hsy : uadd ul.2 lr.2 = ul.2 + lr.2 := uadd_eq_of_lt _ _ (by simp [u32]; omega)
      simp only [buildNode, if_neg heq, hsx, hsy]
      set midX := (ul.1 + lr.1) / 2 with hmidX
      set midY := (ul.2 + lr.2) / 2 with hmidY
      have hmx1 : ul.1 ≤ midX := by omega
      have hmx2 : midX ≤ lr.1 := by omega
      have hmy1 : ul.2 ≤ midY := by omega
      have hmy2 : midY ≤ lr.2 := by omega
      have hne1 : uadd midX 1 = midX + 1 := uadd_eq_of_lt _ _ (by simp [u32]; omega)
      have hne2 : uadd midY 1 = midY + 1 := uadd_eq_of_lt _ _ (by simp [u32]; omega)
      rw [hne1, hne2]
      have hboundSub : ∀ a b : Nat, a ≤ lr.1 - ul.1 + 1 → b ≤ lr.2 - ul.2 + 1 →
          255 * (a * b) < u32 := by
        intro a b haa hbb
        have h0 : a * b ≤ (lr.1 - ul.1 + 1) * (lr.2 - ul.2 + 1) := Nat.mul_le_mul haa hbb
        have h1 : 255 * (a * b) ≤ 255 * ((lr.1 - ul.1 + 1) * (lr.2 - ul.2 + 1)) :=
          Nat.mul_le_mul_left _ h0
        omega
      obtain ⟨nNW, eNW, rNW1, rNW2, rNW3⟩ := ih ul (midX, midY)
        (show (midX - ul.1) + (midY - ul.2) < fuel by omega) hmx1 hmy1
        (show midX < 2147483648 by omega) (show midY < 2147483648 by omega)
        (hboundSub _ _ (by simp; omega) (by simp; omega))
      have hnwT : (if ul.1 ≤ midX ∧ ul.2 ≤ midY then buildNode fuel const255 ul (midX, midY)
          else ONode.none) = .some nNW := by rw [if_pos ⟨hmx1, hmy1⟩, eNW]
      -- area/sum bookkeeping for the four child slots
      have hANW : areaO (.some nNW) = (midX - ul.1 + 1) * (midY - ul.2 + 1) := by
        simp [areaO, area, rNW1, rNW2]
      have hRNW : sumRO (.some nNW) = 255 * ((midX - ul.1 + 1) * (midY - ul.2 + 1)) := by
        simp [sumRO, rNW3, area, rNW1, rNW2]
      have hNE : ∃ o, (if midX + 1 ≤ lr.1 ∧ ul.2 ≤ midY then
            buildNode fuel const255 (midX + 1, ul.2) (lr.1, midY) else ONode.none) = o ∧
          areaO o = (lr.1 - midX) * (midY - ul.2 + 1) ∧
          sumRO o = 255 * ((lr.1 - midX) * (midY - ul.2 + 1)) ∧ rectSmallO o := by
        by_cases hp : midX + 1 ≤ lr.1
        · obtain ⟨n1, e1, r1, r2, r3⟩ := ih (midX + 1, ul.2) (lr.1, midY)
            (show (lr.1 - (midX + 1)) + (midY - ul.2) < fuel by omega)
            (show midX + 1 ≤ lr.1 from hp) (show ul.2 ≤ midY from hmy1)
            (show lr.1 < 2147483648 from hbx) (show midY < 2147483648 by omega)
            (hboundSub _ _ (by simp; omega) (by simp; omega))
          refine ⟨.some n1, by rw [if_pos ⟨hp, hmy1⟩, e1], ?_, ?_, ?_⟩
          · simp [areaO, area, r1, r2]
            omega
          · simp [sumRO, r3, area, r1, r2]
            omega
          · simp [rectSmallO, r1, r2]
            omega
        · have e0 : lr.1 - midX = 0 := by omega
          exact ⟨.none, by rw [if_neg (fun h => hp h.1)], by simp [areaO, e0],
            by simp [sumRO, e0], by simp [rectSmallO]⟩
      have hSW : ∃ o, (if ul.1 ≤ midX ∧ midY + 1 ≤ lr.2 then
            buildNode fuel const255 (ul.1, midY + 1) (midX, lr.2) else ONode.none) = o ∧
          areaO o = (midX - ul.1 + 1) * (lr.2 - midY) ∧
          sumRO o = 255 * ((midX - ul.1 + 1) * (lr.2 - midY)) ∧ rectSmallO o := by
        by_cases hp : midY + 1 ≤ lr.2
        · obtain ⟨n1, e1, r1, r2, r3⟩ := ih (ul.1, midY + 1) (midX, lr.2)
            (show (midX - ul.1) + (lr.2 - (midY + 1)) < fuel by omega)
            (show ul.1 ≤ midX from hmx1) (show midY + 1 ≤ lr.2 from hp)
            (show midX < 2147483648 by omega) (show lr.2 < 2147483648 from hby)
            (hboundSub _ _ (by simp; omega) (by simp; omega))
          refine ⟨.some n1, by rw [if_pos ⟨hmx1, hp⟩, e1], ?_, ?_, ?_⟩
          · simp [areaO, area, r1, r2]
            omega
          · simp [sumRO, r3, area, r1, r2]
            omega
          · simp [rectSmallO, r1, r2]
            omega
        · have e0 : lr.2 - midY = 0 := by omega
          exact ⟨.none, by rw [if_neg (fun h => hp h.2)], by simp [areaO, e0],
            by simp [sumRO, e0], by simp [rectSmallO]⟩
      have hSE : ∃ o, (if midX + 1 ≤ lr.1 ∧ midY + 1 ≤ lr.2 then
            buildNode fuel const255 (midX + 1, midY + 1) lr else ONode.none) = o ∧
          areaO o = (lr.1 - midX) * (lr.2 - midY) ∧
          sumRO o = 255 * ((lr.1 - midX) * (lr.2 - midY)) ∧ rectSmallO o := by
        by_cases hp : midX + 1 ≤ lr.1 ∧ midY + 1 ≤ lr.2
        · obtain ⟨n1, e1, r1, r2, r3⟩ := ih (midX + 1, midY + 1) lr
            (show (lr.1 - (midX + 1)) + (lr.2 - (midY + 1)) < fuel by omega)
            (show midX + 1 ≤ lr.1 from hp.1) (show midY + 1 ≤ lr.2 from hp.2) hbx hby
            (hboundSub _ _ (by simp; omega) (by simp; omega))
          refine ⟨.some n1, by rw [if_pos hp, e1], ?_, ?_, ?_⟩
          · simp [areaO, area, r1, r2]
            have q1 : lr.1 - (midX + 1) + 1 = lr.1 - midX := by omega
            have q2 : lr.2 - (midY + 1) + 1 = lr.2 - midY := by omega
            rw [q1, q2]
          · simp [sumRO, r3, area, r1, r2]
            have q1 : lr.1 - (midX + 1) + 1 = lr.1 - midX := by omega
            have q2 : lr.2 - (midY + 1) + 1 = lr.2 - midY := by omega
            rw [q1, q2]
          · simp [rectSmallO, r1, r2]
            omega
        · by_cases h0 : midX + 1 ≤ lr.1
          · have hnb : ¬ midY + 1 ≤ lr.2 := fun hb => hp ⟨h0, hb⟩
            have e0 : lr.2 - midY = 0 := by omega
            exact ⟨.none, by rw [if_neg hp], by simp [areaO, e0], by simp [sumRO, e0],
              by simp [rectSmallO]⟩
          · have e0 : lr.1 - midX = 0 := by omega
            exact ⟨.none, by rw [if_neg hp], by simp [areaO, e0], by simp [sumRO, e0],
              by simp [rectSmallO]⟩
      obtain ⟨oNE, eNE, aNE, sNE, wNE⟩ := hNE
      obtain ⟨oSW, eSW, aSW, sSW, wSW⟩ := hSW
      obtain ⟨oSE, eSE, aSE, sSE, wSE⟩ := hSE
      rw [hnwT, eNE, eSW, eSE]
      refine ⟨_, rfl, rfl, rfl, ?_⟩
      simp only [Node.avg]
      have hRSnw : rectSmallO (.some nNW) := by
        simp [rectSmallO, rNW1, rNW2]
        omega
      rw [calcAvg_spec _ _ _ _ hRSnw wNE wSW wSE]
      rw [hANW, hRNW, aNE, sNE, aSW, sSW, aSE, sSE]
      have hA : (midX - ul.1 + 1) * (midY - ul.2 + 1) + (lr.1 - midX) * (midY - ul.2 + 1) +
          (midX - ul.1 + 1) * (lr.2 - midY) + (lr.1 - midX) * (lr.2 - midY) =
          (lr.1 - ul.1 + 1) * (lr.2 - ul.2 + 1) := by
        have e1 : lr.1 - ul.1 + 1 = (midX - ul.1 + 1) + (lr.1 - midX) := by omega
        have e2 : lr.2 - ul.2 + 1 = (midY - ul.2 + 1) + (lr.2 - midY) := by omega
        rw [e1, e2]
        ring
      have hR : 255 * ((midX - ul.1 + 1) * (midY - ul.2 + 1)) +
          255 * ((lr.1 - midX) * (midY - ul.2 + 1)) +
          255 * ((midX - ul.1 + 1) * (lr.2 - midY)) +
          255 * ((lr.1 - midX) * (lr.2 - midY)) =
          255 * ((lr.1 - ul.1 + 1) * (lr.2 - ul.2 + 1)) := by
        rw [← hA]
        ring
      rw [hA, hR]
      have hApos : 0 < (lr.1 - ul.1 + 1) * (lr.2 - ul.2 + 1) :=
        Nat.pos_of_ne_zero (Nat.mul_ne_zero (by omega) (by omega))
      have hAlt : (lr.1 - ul.1 + 1) * (lr.2 - ul.2 + 1) < u32 := by omega
      rw [Nat.mod_eq_of_lt hAlt, Nat.mod_eq_of_lt hbound, if_pos hApos]
      exact Nat.mul_div_cancel 255 hApos


theorem buildNode_step (img : Image) (fuel : Nat) (ul lr : Nat × Nat) (hne : ul ≠ lr) :
    buildNode (fuel + 1) img ul lr = .some (.mk ul lr
      (calculateAverageColor
        (if ul.1 ≤ uadd ul.1 lr.1 / 2 ∧ ul.2 ≤ uadd ul.2 lr.2 / 2 then
          buildNode fuel img ul (uadd ul.1 lr.1 / 2, uadd ul.2 lr.2 / 2) else .none)
        (if uadd (uadd ul.1 lr.1 / 2) 1 ≤ lr.1 ∧ ul.2 ≤ uadd ul.2 lr.2 / 2 then
          buildNode fuel img (uadd (uadd ul.1 lr.1 / 2) 1, ul.2) (lr.1, uadd ul.2 lr.2 / 2)
          else .none)
        (if ul.1 ≤ uadd ul.1 lr.1 / 2 ∧ uadd (uadd ul.2 lr.2 / 2) 1 ≤ lr.2 then
          buildNode fuel img (ul.1, uadd (uadd ul.2 lr.2 / 2) 1) (uadd ul.1 lr.1 / 2, lr.2)
          else .none)
        (if uadd (uadd ul.1 lr.1 / 2) 1 ≤ lr.1 ∧ uadd (uadd ul.2 lr.2 / 2) 1 ≤ lr.2 then
          buildNode fuel img (uadd (uadd ul.1 lr.1 / 2) 1, uadd (uadd ul.2 lr.2 / 2) 1) lr
          else .none))
      (if ul.1 ≤ uadd ul.1 lr.1 / 2 ∧ ul.2 ≤ uadd ul.2 lr.2 / 2 then
        buildNode fuel img ul (uadd ul.1 lr.1 / 2, uadd ul.2 lr.2 / 2) else .none)
      (if uadd (uadd ul.1 lr.1 / 2) 1 ≤ lr.1 ∧ ul.2 ≤ uadd ul.2 lr.2 / 2 then
        buildNode fuel img (uadd (uadd ul.1 lr.1 / 2) 1, ul.2) (lr.1, uadd ul.2 lr.2 / 2)
        else .none)
      (if ul.1 ≤ uadd ul.1 lr.1 / 2 ∧ uadd (uadd ul.2 lr.2 / 2) 1 ≤ lr.2 then
        buildNode fuel img (ul.1, uadd (uadd ul.2 lr.2 / 2) 1) (uadd ul.1 lr.1 / 2, lr.2)
        else .none)
      (if uadd (uadd ul.1 lr.1 / 2) 1 ≤ lr.1 ∧ uadd (uadd ul.2 lr.2 / 2) 1 ≤ lr.2 then
        buildNode fuel img (uadd (uadd ul.1 lr.1 / 2) 1, uadd (uadd ul.2 lr.2 / 2) 1) lr
        else .none)) := by
  simp only [buildNode, if_neg hne]

/-- Claim C2 as stated is false on the code: on the uniform all-255 image of
size 4105 x 4105, the root is an internal node whose children all carry stored
red 255, so the integer-truncated area-weighted mean of the direct children is
255; but the unsigned 32-bit red accumulator wraps (255 * 16851025 mod 2^32 =
2044079) and the stored red channel is 2044079 / 16851025 = 0. -/
theorem C2_overflow_counterexample :
    isLeafN (rootN (QTreeM.build const255 4105 4105)) = false ∧
    (rootN (QTreeM.build const255 4105 4105)).avg.r = 0 ∧
    sumR (rootN (QTreeM.build const255 4105 4105)) /
      areaSum (rootN (QTreeM.build const255 4105 4105)) = 255 := by
  have husub : usub 4105 1 = 4104 := by norm_num [usub, u32]
  have hstep : (QTreeM.build const255 4105 4105).root = ONode.some (Node.mk (0, 0) (4104, 4104)
      (calculateAverageColor
        (buildNode 8209 const255 (0, 0) (2052, 2052))
        (buildNode 8209 const255 (2053, 0) (4104, 2052))
        (buildNode 8209 const255 (0, 2053) (2052, 4104))
        (buildNode 8209 const255 (2053, 2053) (4104, 4104)))
      (buildNode 8209 const255 (0, 0) (2052, 2052))
      (buildNode 8209 const255 (2053, 0) (4104, 2052))
      (buildNode 8209 const255 (0, 2053) (2052, 4104))
      (buildNode 8209 const255 (2053, 2053) (4104, 4104))) := by
    show buildNode (4105 + 4105) const255 (0, 0) (usub 4105 1, usub 4105 1) = _
    rw [husub]
    rw [show (4105 + 4105 : Nat) = 8209 + 1 from by norm_num]
    rw [buildNode_step const255 8209 (0, 0) (4104, 4104)
      (by decide : ¬ (((0 : Nat), (0 : Nat)) = ((4104 : Nat), (4104 : Nat))))]
    norm_num [uadd, u32]
  obtain ⟨nA, eA, rA1, rA2, rA3⟩ := buildNode_const255 8209 (0, 0) (2052, 2052)
    (by norm_num) (by norm_num) (by norm_num) (by norm_num) (by norm_num)
    (by norm_num [u32])
  obtain ⟨nB, eB, rB1, rB2, rB3⟩ := buildNode_const255 8209 (2053, 0) (4104, 2052)
    (by norm_num) (by norm_num) (by norm_num) (by norm_num) (by norm_num)
    (by norm_num [u32])
  obtain ⟨nC, eC, rC1, rC2, rC3⟩ := buildNode_const255 8209 (0, 2053) (2052, 4104)
    (by norm_num) (by norm_num) (by norm_num) (by norm_num) (by norm_num)
    (by norm_num [u32])
  obtain ⟨nD, eD, rD1, rD2, rD3⟩ := buildNode_const255 8209 (2053, 2053) (4104, 4104)
    (by norm_num) (by norm_num) (by norm_num) (by norm_num) (by norm_num)
    (by norm_num [u32])
  have hroot : rootN (QTreeM.build const255 4105 4105) = Node.mk (0, 0) (4104, 4104)
      (calculateAverageColor (.some nA) (.some nB) (.some nC) (.some nD))
      (.some nA) (.some nB) (.some nC) (.some nD) := by
    unfold rootN
    rw [hstep, eA, eB, eC, eD]
  have hAa : areaO (.some nA) = 4214809 := by
    simp [areaO, area, rA1, rA2]
  have hBa : areaO (.some nB) = 4212756 := by
    simp [areaO, area, rB1, rB2]
  have hCa : areaO (.some nC) = 4212756 := by
    simp [areaO, area, rC1, rC2]
  have hDa : areaO (.some nD) = 4210704 := by
    simp [areaO, area, rD1, rD2]
  have hAr : sumRO (.some nA) = 1074776295 := by
    simp [sumRO, rA3, area, rA1, rA2]
  have hBr : sumRO (.some nB) = 1074252780 := by
    simp [sumRO, rB3, area, rB1, rB2]
  have hCr : sumRO (.some nC) = 1074252780 := by
    simp [sumRO, rC3, area, rC1, rC2]
  have hDr : sumRO (.some nD) = 1073729520 := by
    simp [sumRO, rD3, area, rD1, rD2]
  have hRSA : rectSmallO (.some nA) := by
    simp [rectSmallO, rA1, rA2]
  have hRSB : rectSmallO (.some nB) := by
    simp [rectSmallO, rB1, rB2]
  have hRSC : rectSmallO (.some nC) := by
    simp [rectSmallO, rC1, rC2]
  have hRSD : rectSmallO (.some nD) := by
    simp [rectSmallO, rD1, rD2]
  have havg : calculateAverageColor (.some nA) (.some nB) (.some nC) (.some nD) =
      { defaultPix with
        r := 0,
        g := (sumGO (.some nA) + sumGO (.some nB) + sumGO (.some nC) + sumGO (.some nD)) %
          u32 / 16851025,
        b := (sumBO (.some nA) + sumBO (.some nB) + sumBO (.some nC) + sumBO (.some nD)) %
          u32 / 16851025 } := by
    rw [calcAvg_spec _ _ _ _ hRSA hRSB hRSC hRSD]
    rw [hAa, hBa, hCa, hDa, hAr, hBr, hCr, hDr]
    norm_num [u32]
  refine ⟨?_, ?_, ?_⟩
  · rw [hroot]
    exact isLeafN_of_nw_some _ _ _ _ _ _ _
  · rw [hroot]
    simp only [Node.avg, havg]
  · rw [hroot]
    simp only [sumR, areaSum, Node.nw, Node.ne, Node.sw, Node.se]
    rw [hAa, hBa, hCa, hDa, hAr, hBr, hCr, hDr]

/-- One painting step of RenderNode at a fixed target pixel: a covering leaf
overwrites the accumulated color. -/
def paintStep (scale cw ch x y : Nat) (acc : RGBAPixel) (n : Node) : RGBAPixel :=
  if coversX n scale x ∧ coversY n scale y ∧ x < cw ∧ y < ch then n.avg else acc

/-- Whether a leaf paints the target pixel (x, y) on a cw x ch canvas. -/
def paintsAt (scale cw ch x y : Nat) (n : Node) : Prop :=
  coversX n scale x ∧ coversY n scale y ∧ x < cw ∧ y < ch

instance (scale cw ch x y : Nat) (n : Node) : Decidable (paintsAt scale cw ch x y n) := by
  unfold paintsAt
  infer_instance

theorem renderO_eq_foldl : ∀ o : ONode, ∀ scale : Nat, ∀ c : Canvas,
    (renderO o scale c).w = c.w ∧ (renderO o scale c).h = c.h ∧
    ∀ x y, (renderO o scale c).pix x y =
      (leavesO o).foldl (paintStep scale c.w c.h x y) (c.pix x y) := by
  refine ONode.rec
    (motive_1 := fun n => ∀ scale c, (renderN n scale c).w = c.w ∧
      (renderN n scale c).h = c.h ∧
      ∀ x y, (renderN n scale c).pix x y =
        (leavesN n).foldl (paintStep scale c.w c.h x y) (c.pix x y))
    (motive_2 := fun o => ∀ scale c, (renderO o scale c).w = c.w ∧
      (renderO o scale c).h = c.h ∧
      ∀ x y, (renderO o scale c).pix x y =
        (leavesO o).foldl (paintStep scale c.w c.h x y) (c.pix x y))
    ?_ ?_ ?_
  · intro ul lr avg nw ne sw se ihnw ihne ihsw ihse scale c
    by_cases hL : isLeafN (.mk ul lr avg nw ne sw se) = true
    · simp only [renderN, leavesN, hL, if_true, if_pos]
      refine ⟨by trivial, by trivial, ?_⟩
      intro x y
      simp only [List.foldl_cons, List.foldl_nil, paintStep]
      rfl
    · simp only [renderN, leavesN, hL, Bool.false_eq_true, if_false]
      obtain ⟨w1, h1, p1⟩ := ihnw scale c
      set c1 := renderO nw scale c with hc1
      obtain ⟨w2, h2, p2⟩ := ihne scale c1
      set c2 := renderO ne scale c1 with hc2
      obtain ⟨w3, h3, p3⟩ := ihsw scale c2
      set c3 := renderO sw scale c2 with hc3
      obtain ⟨w4, h4, p4⟩ := ihse scale c3
      refine ⟨by rw [w4, w3, w2, w1], by rw [h4, h3, h2, h1], ?_⟩
      intro x y
      rw [p4 x y, p3 x y, p2 x y, p1 x y]
      rw [w3, w2, w1, h3, h2, h1]
      simp only [List.foldl_append]
  · intro scale c
    exact ⟨rfl, rfl, fun x y => rfl⟩
  · intro n ih scale c
    exact ih scale c

theorem foldl_paint_none {scale cw ch x y : Nat} :
    ∀ (L : List Node) (init : RGBAPixel),
    (∀ n ∈ L, ¬ paintsAt scale cw ch x y n) →
    L.foldl (paintStep scale cw ch x y) init = init := by
  intro L
  induction L with
  | nil =>
    intro init h
    rfl
  | cons a L ih =>
    intro init h
    have ha : ¬ paintsAt scale cw ch x y a := h a (List.mem_cons_self a L)
    simp only [List.foldl_cons]
    rw [show paintStep scale cw ch x y init a = init from if_neg ha]
    exact ih init (fun n hn => h n (List.mem_cons_of_mem a hn))

theorem foldl_paint_const {scale cw ch x y : Nat} (v : RGBAPixel) :
    ∀ (L : List Node) (init : RGBAPixel),
    (∀ n ∈ L, paintsAt scale cw ch x y n → n.avg = v) →
    (∃ n ∈ L, paintsAt scale cw ch x y n) →
    L.foldl (paintStep scale cw ch x y) init = v := by
  intro L
  induction L with
  | nil =>
    intro init hall hex
    obtain ⟨n, hn, _⟩ := hex
    exact absurd hn (List.not_mem_nil n)
  | cons a L ih =>
    intro init hall hex
    simp only [List.foldl_cons]
    by_cases ha : paintsAt scale cw ch x y a
    · rw [show paintStep scale cw ch x y init a = a.avg from if_pos ha]
      by_cases hL : ∃ n ∈ L, paintsAt scale cw ch x y n
      · exact ih a.avg (fun n hn hp => hall n (List.mem_cons_of_mem a hn) hp) hL
      · push_neg at hL
        rw [foldl_paint_none L a.avg hL]
        exact hall a (List.mem_cons_self a L) ha
    · rw [show paintStep scale cw ch x y init a = init from if_neg ha]
      refine ih init (fun n hn hp => hall n (List.mem_cons_of_mem a hn) hp) ?_
      obtain ⟨n, hn, hp⟩ := hex
      rcases List.mem_cons.mp hn with rfl | hn2
      · exact absurd hp ha
      · exact ⟨n, hn2, hp⟩

/-- The horizontal mirror of a node's own rectangle on a width-w image:
exactly the coordinate update UpdateCoordinatesAfterFlip applies. -/
def mirrorNode (w : Nat) (n : Node) : Node :=
  .mk (usub (usub w 1) n.lowRight.1, n.upLeft.2) (usub (usub w 1) n.upLeft.1, n.lowRight.2)
    n.avg n.nw n.ne n.sw n.se

theorem isNull_flipCh (w : Nat) (o : ONode) : (flipCh w o).isNull = o.isNull := by
  cases o with
  | none => rfl
  | some n =>
    cases n with
    | mk ul lr avg nw ne sw se => rfl

theorem isNull_eq_none {o : ONode} (h : o.isNull = true) : o = .none := by
  cases o with
  | none => rfl
  | some n => simp [ONode.isNull] at h

theorem isLeafN_flipCh_mk (w : Nat) (ul lr : Nat × Nat) (avg : RGBAPixel)
    (nw ne sw se : ONode) :
    isLeafN (.mk (usub (usub w 1) lr.1, ul.2) (usub (usub w 1) ul.1, lr.2) avg
      (flipCh w ne) (flipCh w nw) (flipCh w se) (flipCh w sw)) =
    isLeafN (.mk ul lr avg nw ne sw se) := by
  simp only [isLeafN, Node.nw, Node.ne, Node.sw, Node.se, isNull_flipCh]
  cases nw.isNull <;> cases ne.isNull <;> cases sw.isNull <;> cases se.isNull <;> rfl

theorem perm_swap2 {α : Type} (A B R : List α) : (A ++ (B ++ R)).Perm (B ++ (A ++ R)) := by
  have h1 : A ++ (B ++ R) = (A ++ B) ++ R := by rw [List.append_assoc]
  have h2 : B ++ (A ++ R) = (B ++ A) ++ R := by rw [List.append_assoc]
  rw [h1, h2]
  exact List.perm_append_comm.append_right R

theorem leaves_flipCh_perm (w : Nat) : ∀ o : ONode,
    (leavesO (flipCh w o)).Perm ((leavesO o).map (mirrorNode w)) := by
  refine ONode.rec
    (motive_1 := fun n => (leavesO (flipCh w (.some n))).Perm
      ((leavesN n).map (mirrorNode w)))
    (motive_2 := fun o => (leavesO (flipCh w o)).Perm ((leavesO o).map (mirrorNode w)))
    ?_ ?_ ?_
  · intro ul lr avg nw ne sw se ihnw ihne ihsw ihse
    by_cases hL : isLeafN (.mk ul lr avg nw ne sw se) = true
    · have h0 := hL
      simp only [isLeafN, Bool.and_eq_true, Node.nw, Node.ne, Node.sw, Node.se] at h0
      obtain ⟨⟨⟨e1, e2⟩, e3⟩, e4⟩ := h0
      rw [isNull_eq_none e1, isNull_eq_none e2, isNull_eq_none e3, isNull_eq_none e4]
      rw [isNull_eq_none e1, isNull_eq_none e2, isNull_eq_none e3, isNull_eq_none e4] at hL
      simp only [flipCh, leavesO, leavesN, hL, if_true, mirrorNode, Node.upLeft,
        Node.lowRight, Node.avg, Node.nw, Node.ne, Node.sw, Node.se, List.map_cons,
        List.map_nil]
      exact List.Perm.refl _
    · simp only [flipCh, leavesO]
      have hLf : isLeafN (.mk (usub (usub w 1) lr.1, ul.2) (usub (usub w 1) ul.1, lr.2) avg
          (flipCh w ne) (flipCh w nw) (flipCh w se) (flipCh w sw)) = false := by
        rw [isLeafN_flipCh_mk]
        exact Bool.not_eq_true _ ▸ (by simpa using hL)
      simp only [leavesN, hLf, Bool.false_eq_true, if_false, hL,
        List.map_append]
      simp only [List.append_assoc]
      refine List.Perm.trans (List.Perm.append ihne (List.Perm.append ihnw
        (List.Perm.append ihse ihsw))) ?_
      refine List.Perm.trans (perm_swap2 _ _ _) ?_
      refine List.Perm.append_left _ ?_
      refine List.Perm.append_left _ ?_
      exact List.perm_append_comm
  · exact List.Perm.refl _
  · intro n ih
    exact ih

/-- The root-leaf side condition for the mirror property: FlipNodeHorizontal
never remaps the root's own coordinates, so if the whole tree is a single
leaf its rectangle must be mirror-symmetric for the render to mirror. -/
def rootFlipOK (t : QTreeM) : Prop :=
  ∀ n, t.root = .some n → isLeafN n = true →
    usub (usub t.width 1) n.lowRight.1 = n.upLeft.1 ∧
    usub (usub t.width 1) n.upLeft.1 = n.lowRight.1

theorem leaves_flipRoot_perm (t : QTreeM) (hok : rootFlipOK t) :
    (leavesO (flipRoot t.width t.root)).Perm ((leavesO t.root).map (mirrorNode t.width)) := by
  cases hE : t.root with
  | none => exact List.Perm.refl _
  | some n =>
    cases n with
    | mk ul lr avg nw ne sw se =>
      by_cases hL : isLeafN (.mk ul lr avg nw ne sw se) = true
      · have h0 := hL
        simp only [isLeafN, Bool.and_eq_true, Node.nw, Node.ne, Node.sw, Node.se] at h0
        obtain ⟨⟨⟨e1, e2⟩, e3⟩, e4⟩ := h0
        rw [isNull_eq_none e1, isNull_eq_none e2, isNull_eq_none e3, isNull_eq_none e4] at hE hL
        obtain ⟨m1, m2⟩ := hok _ hE hL
        rw [isNull_eq_none e1, isNull_eq_none e2, isNull_eq_none e3, isNull_eq_none e4]
        simp only [flipRoot, flipCh, leavesO, leavesN, hL, if_true, List.map_cons, List.map_nil]
        have hmirr : mirrorNode t.width (.mk ul lr avg .none .none .none .none) =
            .mk ul lr avg .none .none .none .none := by
          simp only [mirrorNode, Node.upLeft, Node.lowRight, Node.avg, Node.nw, Node.ne,
            Node.sw, Node.se] at m1 m2 ⊢
          rw [m1, m2]
        rw [hmirr]
      · have hLf : isLeafN (.mk ul lr avg (flipCh t.width ne) (flipCh t.width nw)
            (flipCh t.width se) (flipCh t.width sw)) = false := by
          simp only [isLeafN, Node.nw, Node.ne, Node.sw, Node.se, isNull_flipCh]
          simp only [isLeafN, Node.nw, Node.ne, Node.sw, Node.se] at hL
          revert hL
          cases nw.isNull <;> cases ne.isNull <;> cases sw.isNull <;> cases se.isNull <;>
            intro hL <;> first | rfl | exact absurd rfl hL
        have hLc := hL
        simp only [flipRoot, leavesO, leavesN, hLf, Bool.false_eq_true, if_false,
          eq_self_iff_true]
        rw [show isLeafN (.mk ul lr avg nw ne sw se) = false from by
          revert hLc
          cases isLeafN (.mk ul lr avg nw ne sw se) <;> intro hLc <;>
            first | rfl | exact absurd rfl hLc]
        simp only [Bool.false_eq_true, if_false, List.map_append, List.append_assoc]
        refine List.Perm.trans (List.Perm.append (leaves_flipCh_perm t.width ne)
          (List.Perm.append (leaves_flipCh_perm t.width nw)
            (List.Perm.append (leaves_flipCh_perm t.width se)
              (leaves_flipCh_perm t.width sw)))) ?_
        refine List.Perm.trans (perm_swap2 _ _ _) ?_
        refine List.Perm.append_left _ ?_
        refine List.Perm.append_left _ ?_
        exact List.perm_append_comm

/-- Geometric well-formedness of one node for the mirror property: increasing
rectangle, x-extent inside the width-w canvas, y-coordinates representable. -/
def nodeXYOK (w : Nat) (n : Node) : Prop :=
  n.upLeft.1 ≤ n.lowRight.1 ∧ n.upLeft.2 ≤ n.lowRight.2 ∧
  n.lowRight.1 ≤ w - 1 ∧ n.lowRight.2 + 1 < u32

instance (w : Nat) (n : Node) : Decidable (nodeXYOK w n) := by
  unfold nodeXYOK
  infer_instance

/-- Non-overlap of two nodes' rectangles. -/
def disjointRect (a b : Node) : Prop :=
  a.lowRight.1 < b.upLeft.1 ∨ b.lowRight.1 < a.upLeft.1 ∨
  a.lowRight.2 < b.upLeft.2 ∨ b.lowRight.2 < a.upLeft.2

instance (a b : Node) : Decidable (disjointRect a b) := by
  unfold disjointRect
  infer_instance

theorem leaves_subset_nodes : ∀ o : ONode, ∀ n ∈ leavesO o, n ∈ nodesO o := by
  refine ONode.rec
    (motive_1 := fun k => ∀ n ∈ leavesN k, n ∈ nodesN k)
    (motive_2 := fun o => ∀ n ∈ leavesO o, n ∈ nodesO o)
    ?_ ?_ ?_
  · intro ul lr avg nw ne sw se ihnw ihne ihsw ihse n hn
    by_cases hL : isLeafN (.mk ul lr avg nw ne sw se) = true
    · simp only [leavesN, hL, if_true, List.mem_singleton] at hn
      subst hn
      exact self_mem_nodesN _
    · simp only [leavesN, hL, Bool.false_eq_true, if_false, List.mem_append] at hn
      simp only [nodesN, List.mem_cons, List.mem_append]
      rcases hn with ((h | h) | h) | h
      · exact Or.inr (Or.inl (Or.inl (Or.inl (ihnw n h))))
      · exact Or.inr (Or.inl (Or.inl (Or.inr (ihne n h))))
      · exact Or.inr (Or.inl (Or.inr (ihsw n h)))
      · exact Or.inr (Or.inr (ihse n h))
  · intro n hn
    exact absurd hn (List.not_mem_nil n)
  · intro k ih n hn
    exact ih n hn

theorem coversX_iff {w : Nat} (hw : 0 < w) (hwb : w < u32) {n : Node}
    (h1 : n.upLeft.1 ≤ n.lowRight.1) (h2 : n.lowRight.1 ≤ w - 1) (x : Nat) :
    coversX n 1 x ↔ n.upLeft.1 ≤ x ∧ x ≤ n.lowRight.1 := by
  unfold coversX
  have e1 : umul n.upLeft.1 1 = n.upLeft.1 := umul_one _ (by omega)
  have e2 : uadd n.lowRight.1 1 = n.lowRight.1 + 1 := uadd_eq_of_lt _ _ (by omega)
  have e3 : umul (n.lowRight.1 + 1) 1 = n.lowRight.1 + 1 := umul_one _ (by omega)
  rw [e1, e2, e3]
  omega

theorem coversY_iff {n : Node} (h1 : n.upLeft.2 ≤ n.lowRight.2)
    (h2 : n.lowRight.2 + 1 < u32) (y : Nat) :
    coversY n 1 y ↔ n.upLeft.2 ≤ y ∧ y ≤ n.lowRight.2 := by
  unfold coversY
  have e1 : umul n.upLeft.2 1 = n.upLeft.2 := umul_one _ (by omega)
  have e2 : uadd n.lowRight.2 1 = n.lowRight.2 + 1 := uadd_eq_of_lt _ _ (by omega)
  have e3 : umul (n.lowRight.2 + 1) 1 = n.lowRight.2 + 1 := umul_one _ (by omega)
  rw [e1, e2, e3]
  omega

theorem paintsAt_mirror {w : Nat} (hw : 0 < w) (hwb : w < u32) {n : Node}
    (hok : nodeXYOK w n) (ch x y : Nat) (hx : x < w) :
    paintsAt 1 (umul w 1) ch x y (mirrorNode w n) ↔
    paintsAt 1 (umul w 1) ch (w - 1 - x) y n := by
  obtain ⟨h1, h2, h3, h4⟩ := hok
  have ew : umul w 1 = w := umul_one _ hwb
  have e1 : usub w 1 = w - 1 := usub_eq_of_le _ _ (by omega) hwb
  have hm1 : (mirrorNode w n).upLeft.1 = w - 1 - n.lowRight.1 := by
    simp only [mirrorNode, Node.upLeft, e1]
    exact usub_eq_of_le _ _ (by omega) (by omega)
  have hm2 : (mirrorNode w n).lowRight.1 = w - 1 - n.upLeft.1 := by
    simp only [mirrorNode, Node.lowRight, e1]
    exact usub_eq_of_le _ _ (by omega) (by omega)
  have hm3 : (mirrorNode w n).upLeft.2 = n.upLeft.2 := rfl
  have hm4 : (mirrorNode w n).lowRight.2 = n.lowRight.2 := rfl
  have hmok1 : (mirrorNode w n).upLeft.1 ≤ (mirrorNode w n).lowRight.1 := by
    rw [hm1, hm2]
    omega
  have hmok2 : (mirrorNode w n).lowRight.1 ≤ w - 1 := by
    rw [hm2]
    omega
  unfold paintsAt
  rw [coversX_iff hw hwb hmok1 hmok2, coversX_iff hw hwb h1 h3,
    coversY_iff (n := mirrorNode w n) (by rw [hm3, hm4]; exact h2) (by rw [hm4]; exact h4),
    coversY_iff h2 h4, hm1, hm2, hm3, hm4, ew]
  omega

theorem countNodes_flipCh (w : Nat) : ∀ o : ONode,
    (nodesO (flipCh w o)).length = (nodesO o).length := by
  refine ONode.rec
    (motive_1 := fun k => (nodesO (flipCh w (.some k))).length = (nodesN k).length)
    (motive_2 := fun o => (nodesO (flipCh w o)).length = (nodesO o).length)
    ?_ ?_ ?_
  · intro ul lr avg nw ne sw se ihnw ihne ihsw ihse
    simp only [flipCh, nodesO, nodesN, List.length_cons, List.length_append] at *
    omega
  · rfl
  · intro k ih
    exact ih

theorem countNodes_flipRoot (w : Nat) (o : ONode) :
    (nodesO (flipRoot w o)).length = (nodesO o).length := by
  cases o with
  | none => rfl
  | some n =>
    cases n with
    | mk ul lr avg nw ne sw se =>
      have hnw := countNodes_flipCh w nw
      have hne := countNodes_flipCh w ne
      have hsw := countNodes_flipCh w sw
      have hse := countNodes_flipCh w se
      simp only [flipRoot, nodesO, nodesN, List.length_cons, List.length_append] at *
      omega

theorem inc_flipCh (w : Nat) (hw : 0 < w) (hwb : w < u32) : ∀ o : ONode,
    (∀ n ∈ nodesO o, n.upLeft.1 ≤ n.lowRight.1 ∧ n.lowRight.1 ≤ w - 1) →
    ∀ n ∈ nodesO (flipCh w o), n.upLeft.1 ≤ n.lowRight.1 := by
  refine ONode.rec
    (motive_1 := fun k => (∀ n ∈ nodesN k, n.upLeft.1 ≤ n.lowRight.1 ∧
        n.lowRight.1 ≤ w - 1) →
      ∀ n ∈ nodesO (flipCh w (.some k)), n.upLeft.1 ≤ n.lowRight.1)
    (motive_2 := fun o => (∀ n ∈ nodesO o, n.upLeft.1 ≤ n.lowRight.1 ∧
        n.lowRight.1 ≤ w - 1) →
      ∀ n ∈ nodesO (flipCh w o), n.upLeft.1 ≤ n.lowRight.1)
    ?_ ?_ ?_
  · intro ul lr avg nw ne sw se ihnw ihne ihsw ihse hyp n hn
    have hhead := hyp (.mk ul lr avg nw ne sw se) (self_mem_nodesN _)
    simp only [Node.upLeft, Node.lowRight] at hhead
    simp only [flipCh, nodesO, nodesN, List.mem_cons, List.mem_append] at hn
    have hsub : ∀ (c : ONode), (∀ m ∈ nodesO c, m ∈ nodesN (Node.mk ul lr avg nw ne sw se)) →
        ∀ m ∈ nodesO c, m.upLeft.1 ≤ m.lowRight.1 ∧ m.lowRight.1 ≤ w - 1 :=
      fun c hc m hm => hyp m (hc m hm)
    rcases hn with rfl | (((hA | hB) | hC) | hD)
    · simp only [Node.upLeft, Node.lowRight]
      have e1 : usub w 1 = w - 1 := usub_eq_of_le _ _ (by omega) hwb
      rw [e1, usub_eq_of_le _ _ (by omega) (by omega),
        usub_eq_of_le _ _ (by omega) (by omega)]
      omega
    · refine ihne (hsub ne ?_) n hA
      intro m hm
      simp only [nodesN, List.mem_cons, List.mem_append]
      exact Or.inr (Or.inl (Or.inl (Or.inr hm)))
    · refine ihnw (hsub nw ?_) n hB
      intro m hm
      simp only [nodesN, List.mem_cons, List.mem_append]
      exact Or.inr (Or.inl (Or.inl (Or.inl hm)))
    · refine ihse (hsub se ?_) n hC
      intro m hm
      simp only [nodesN, List.mem_cons, List.mem_append]
      exact Or.inr (Or.inr hm)
    · refine ihsw (hsub sw ?_) n hD
      intro m hm
      simp only [nodesN, List.mem_cons, List.mem_append]
      exact Or.inr (Or.inl (Or.inr hm))
  · intro hyp n hn
    simp [flipCh, nodesO] at hn
  · intro k ih hyp n hn
    exact ih hyp n hn

theorem inc_flipRoot (w : Nat) (hw : 0 < w) (hwb : w < u32) (o : ONode)
    (hyp : ∀ n ∈ nodesO o, n.upLeft.1 ≤ n.lowRight.1 ∧ n.lowRight.1 ≤ w - 1) :
    ∀ n ∈ nodesO (flipRoot w o), n.upLeft.1 ≤ n.lowRight.1 := by
  cases o with
  | none =>
    intro n hn
    simp [flipRoot, nodesO] at hn
  | some k =>
    cases k with
    | mk ul lr avg nw ne sw se =>
      intro n hn
      simp only [flipRoot, nodesO, nodesN, List.mem_cons, List.mem_append] at hn
      have hsub : ∀ (c : ONode), (∀ m ∈ nodesO c, m ∈ nodesN (Node.mk ul lr avg nw ne sw se)) →
          ∀ m ∈ nodesO c, m.upLeft.1 ≤ m.lowRight.1 ∧ m.lowRight.1 ≤ w - 1 :=
        fun c hc m hm => hyp m (by simpa [nodesO] using hc m hm)
      rcases hn with rfl | (((hA | hB) | hC) | hD)
      · have h0 := (hyp (Node.mk ul lr avg nw ne sw se)
          (by simp only [nodesO]; exact self_mem_nodesN _)).1
        simp only [Node.upLeft, Node.lowRight] at h0 ⊢
        exact h0
      · refine inc_flipCh w hw hwb ne (hsub ne ?_) n hA
        intro m hm
        simp only [nodesN, List.mem_cons, List.mem_append]
        exact Or.inr (Or.inl (Or.inl (Or.inr hm)))
      · refine inc_flipCh w hw hwb nw (hsub nw ?_) n hB
        intro m hm
        simp only [nodesN, List.mem_cons, List.mem_append]
        exact Or.inr (Or.inl (Or.inl (Or.inl hm)))
      · refine inc_flipCh w hw hwb se (hsub se ?_) n hC
        intro m hm
        simp only [nodesN, List.mem_cons, List.mem_append]
        exact Or.inr (Or.inr hm)
      · refine inc_flipCh w hw hwb sw (hsub sw ?_) n hD
        intro m hm
        simp only [nodesN, List.mem_cons, List.mem_append]
        exact Or.inr (Or.inl (Or.inr hm))

theorem disjointRect_symm : Symmetric disjointRect := by
  intro a b h
  unfold disjointRect at *
  tauto

/-- Claim C7 (amended): for a tree whose nodes' rectangles are increasing and
inside the canvas and whose leaf rectangles are pairwise disjoint (true of
every built, pruned or flipped tree, but violated by the buggy rotation), and
whose root, if a single leaf, is mirror-symmetric (FlipNodeHorizontal never
updates the root's own coordinates), FlipHorizontal mirrors the rendered
image across the vertical centerline, allocates no nodes (the node count is
unchanged), and keeps every rectangle in increasing order. -/
theorem C7_flip_mirror_amended (t : QTreeM) (hW : 0 < t.width) (hWb : t.width < u32)
    (hxy : ∀ n ∈ nodesO t.root, nodeXYOK t.width n)
    (hdisj : (leavesO t.root).Pairwise disjointRect)
    (hok : rootFlipOK t) :
    (∀ x y, x < t.width →
      t.FlipHorizontal.renderAt 1 x y = t.renderAt 1 (t.width - 1 - x) y) ∧
    countNodes t.FlipHorizontal.root = countNodes t.root ∧
    (∀ n ∈ nodesO t.FlipHorizontal.root, n.upLeft.1 ≤ n.lowRight.1) := by
  refine ⟨?_, ?_, ?_⟩
  · intro x y hx
    have hperm := leaves_flipRoot_perm t hok
    have hrL := renderO_eq_foldl (flipRoot t.width t.root) 1
      ⟨umul t.width 1, umul t.height 1, fun _ _ => defaultPix⟩
    have hrR := renderO_eq_foldl t.root 1
      ⟨umul t.width 1, umul t.height 1, fun _ _ => defaultPix⟩
    simp only [QTreeM.renderAt, QTreeM.Render, QTreeM.FlipHorizontal]
    rw [hrL.2.2 x y, hrR.2.2 (t.width - 1 - x) y]
    have hleafOK : ∀ m ∈ leavesO t.root, nodeXYOK t.width m :=
      fun m hm => hxy m (leaves_subset_nodes t.root m hm)
    have huniq : ∀ p q : Nat, ∀ a ∈ leavesO t.root, ∀ b ∈ leavesO t.root,
        paintsAt 1 (umul t.width 1) (umul t.height 1) p q a →
        paintsAt 1 (umul t.width 1) (umul t.height 1) p q b → a.avg = b.avg := by
      intro p q a ha b hb hpa hpb
      by_cases hab : a = b
      · rw [hab]
      · exfalso
        have hR : disjointRect a b := hdisj.forall disjointRect_symm ha hb hab
        obtain ⟨a1, a2, a3, a4⟩ := hleafOK a ha
        obtain ⟨b1, b2, b3, b4⟩ := hleafOK b hb
        obtain ⟨ca1, ca2, _, _⟩ := hpa
        obtain ⟨cb1, cb2, _, _⟩ := hpb
        rw [coversX_iff hW hWb a1 a3 p] at ca1
        rw [coversY_iff a2 a4 q] at ca2
        rw [coversX_iff hW hWb b1 b3 p] at cb1
        rw [coversY_iff b2 b4 q] at cb2
        unfold disjointRect at hR
        omega
    by_cases hex : ∃ m ∈ leavesO t.root,
        paintsAt 1 (umul t.width 1) (umul t.height 1) (t.width - 1 - x) y m
    · obtain ⟨m, hm, hpm⟩ := hex
      have hRHS := foldl_paint_const m.avg (leavesO t.root) defaultPix
        (fun n hn hp => huniq _ _ n hn m hm hp hpm) ⟨m, hm, hpm⟩
      have hLHS := foldl_paint_const m.avg (leavesO (flipRoot t.width t.root)) defaultPix
        (by
          intro n2 hn2 hp2
          have hn3 : n2 ∈ (leavesO t.root).map (mirrorNode t.width) :=
            hperm.mem_iff.mp hn2
          obtain ⟨k, hk, hkeq⟩ := List.mem_map.mp hn3
          rw [← hkeq] at hp2
          rw [paintsAt_mirror hW hWb (hleafOK k hk) (umul t.height 1) x y hx] at hp2
          have : k.avg = m.avg := huniq _ _ k hk m hm hp2 hpm
          rw [← hkeq]
          exact this)
        (by
          refine ⟨mirrorNode t.width m, hperm.mem_iff.mpr (List.mem_map_of_mem _ hm), ?_⟩
          rw [paintsAt_mirror hW hWb (hleafOK m hm) (umul t.height 1) x y hx]
          exact hpm)
      rw [hLHS, hRHS]
    · push_neg at hex
      have hRHS := foldl_paint_none (leavesO t.root) defaultPix hex
      have hLHS := foldl_paint_none (leavesO (flipRoot t.width t.root)) defaultPix
        (by
          intro n2 hn2 hp2
          have hn3 : n2 ∈ (leavesO t.root).map (mirrorNode t.width) :=
            hperm.mem_iff.mp hn2
          obtain ⟨k, hk, hkeq⟩ := List.mem_map.mp hn3
          rw [← hkeq] at hp2
          rw [paintsAt_mirror hW hWb (hleafOK k hk) (umul t.height 1) x y hx] at hp2
          exact hex k hk hp2)
      rw [hLHS, hRHS]
  · exact countNodes_flipRoot t.width t.root
  · refine inc_flipRoot t.width hW hWb t.root ?_
    intro n hn
    obtain ⟨g1, _, g3, _⟩ := hxy n hn
    exact ⟨g1, g3⟩

/-- Witness for the amended C7 on the freshly built 2x2 tree. -/
theorem C7_flip_mirror_amended_witness :
    (∀ n ∈ nodesO (QTreeM.build img2 2 2).root, nodeXYOK (QTreeM.build img2 2 2).width n) ∧
    (leavesO (QTreeM.build img2 2 2).root).Pairwise disjointRect ∧
    (QTreeM.build img2 2 2).FlipHorizontal.renderAt 1 0 0 =
      (QTreeM.build img2 2 2).renderAt 1 ((QTreeM.build img2 2 2).width - 1 - 0) 0 ∧
    countNodes (QTreeM.build img2 2 2).FlipHorizontal.root =
      countNodes (QTreeM.build img2 2 2).root := by
  have hrOK : rootFlipOK (QTreeM.build img2 2 2) := by
    intro n hE hL
    have hr : (QTreeM.build img2 2 2).root = .some (rootN (QTreeM.build img2 2 2)) := by
      decide
    rw [hr] at hE
    injection hE with h2
    rw [← h2] at hL
    have : isLeafN (rootN (QTreeM.build img2 2 2)) = false := by decide
    rw [this] at hL
    exact absurd hL (by decide)
  have happ := C7_flip_mirror_amended (QTreeM.build img2 2 2) (by decide) (by decide)
    (by decide) (by decide) hrOK
  exact ⟨by decide, by decide, happ.1 0 0 (by decide), happ.2.1⟩

/-- A heap-resident Node record: rectangle, average color, and four child
pointers (heap addresses), for the pointer-level model of Copy and Prune. -/
structure HNode where
  upLeft : Nat × Nat
  lowRight : Nat × Nat
  avg : RGBAPixel
  nw : Option Nat
  ne : Option Nat
  sw : Option Nat
  se : Option Nat
deriving DecidableEq, Repr

/-- The C++ heap: allocated node records by address, plus a bump allocator
(fresh addresses are those at or above `next`). -/
structure Heap where
  mem : Nat → Option HNode
  next : Nat

/-- QTree::IsLeaf on a heap record. -/
def hIsLeaf (nd : HNode) : Bool :=
  nd.nw.isNone && nd.ne.isNone && nd.sw.isNone && nd.se.isNone

/-- QTree::CopyNode in the heap model: a null pointer copies to null;
otherwise a new node is allocated (with the same rectangle and average),
the four children are deep-copied in order, and the new node's child fields
are set to the copies.  Fuel bounds the recursion depth. -/
def copyNodeH : Nat → Heap → Option Nat → Heap × Option Nat
  | _, h, .none => (h, .none)
  | 0, h, .some _ => (h, .none)
  | fuel + 1, h, .some a =>
    match h.mem a with
    | .none => (h, .none)
    | .some nd =>
      let addr := h.next
      let h1 : Heap := ⟨fun i => if i = addr then
          .some ⟨nd.upLeft, nd.lowRight, nd.avg, .none, .none, .none, .none⟩
        else h.mem i, h.next + 1⟩
      let r1 := copyNodeH fuel h1 nd.nw
      let r2 := copyNodeH fuel r1.1 nd.ne
      let r3 := copyNodeH fuel r2.1 nd.sw
      let r4 := copyNodeH fuel r3.1 nd.se
      (⟨fun i => if i = addr then
          .some ⟨nd.upLeft, nd.lowRight, nd.avg, r1.2, r2.2, r3.2, r4.2⟩
        else r4.1.mem i, r4.1.next⟩, .some addr)

/-- QTree::ClearSubtree in the heap model: post-order deallocation of every
node of the subtree (the caller nulls its own field). -/
def clearSubH : Nat → Heap → Option Nat → Heap
  | _, h, .none => h
  | 0, h, .some _ => h
  | fuel + 1, h, .some a =>
    match h.mem a with
    | .none => h
    | .some nd =>
      let h1 := clearSubH fuel h nd.nw
      let h2 := clearSubH fuel h1 nd.ne
      let h3 := clearSubH fuel h2 nd.sw
      let h4 := clearSubH fuel h3 nd.se
      ⟨fun i => if i = a then .none else h4.mem i, h4.next⟩

/-- QTree::CanPrune in the heap model. -/
def canPruneH : Nat → Heap → Option Nat → RGBAPixel → Nat → Bool
  | _, _, .none, _, _ => true
  | 0, _, .some _, _, _ => true
  | fuel + 1, h, .some a, avgColor, tolerance =>
    match h.mem a with
    | .none => true
    | .some nd =>
      if hIsLeaf nd then decide (nd.avg.distanceTo avgColor ≤ tolerance)
      else
        canPruneH fuel h nd.nw avgColor tolerance &&
        canPruneH fuel h nd.ne avgColor tolerance &&
        canPruneH fuel h nd.sw avgColor tolerance &&
        canPruneH fuel h nd.se avgColor tolerance

/-- QTree::PruneNode in the heap model: children are pruned first; then, if
CanPrune holds of this node against its own stored average, all four child
subtrees are deallocated and the node's child fields are nulled. -/
def pruneH : Nat → Heap → Option Nat → Nat → Heap
  | _, h, .none, _ => h
  | 0, h, .some _, _ => h
  | fuel + 1, h, .some a, tolerance =>
    match h.mem a with
    | .none => h
    | .some nd =>
      if hIsLeaf nd then h
      else
        let h1 := pruneH fuel h nd.nw tolerance
        let h2 := pruneH fuel h1 nd.ne tolerance
        let h3 := pruneH fuel h2 nd.sw tolerance
        let h4 := pruneH fuel h3 nd.se tolerance
        match h4.mem a with
        | .none => h4
        | .some nd2 =>
          if canPruneH (fuel + 1) h4 (.some a) nd2.avg tolerance then
            let g1 := clearSubH fuel h4 nd2.nw
            let g2 := clearSubH fuel g1 nd2.ne
            let g3 := clearSubH fuel g2 nd2.sw
            let g4 := clearSubH fuel g3 nd2.se
            ⟨fun i => if i = a then
                .some ⟨nd2.upLeft, nd2.lowRight, nd2.avg, .none, .none, .none, .none⟩
              else g4.mem i, g4.next⟩
          else h4

/-- Reading the pointer structure back as a value tree (for rendering). -/
def extractH : Nat → Heap → Option Nat → ONode
  | _, _, .none => .none
  | 0, _, .some _ => .none
  | fuel + 1, h, .some a =>
    match h.mem a with
    | .none => .none
    | .some nd =>
      .some (.mk nd.upLeft nd.lowRight nd.avg
        (extractH fuel h nd.nw) (extractH fuel h nd.ne)
        (extractH fuel h nd.sw) (extractH fuel h nd.se))

/-- The heap addresses a subtree pointer depends on (to the given depth). -/
def reachH : Nat → Heap → Option Nat → List Nat
  | _, _, .none => []
  | 0, _, .some _ => []
  | fuel + 1, h, .some a =>
    a :: (match h.mem a with
      | .none => []
      | .some nd =>
        reachH fuel h nd.nw ++ reachH fuel h nd.ne ++
        reachH fuel h nd.sw ++ reachH fuel h nd.se)

theorem extract_frame : ∀ fuel : Nat, ∀ h h2 : Heap, ∀ p : Option Nat,
    (∀ i ∈ reachH fuel h p, h2.mem i = h.mem i) →
    extractH fuel h2 p = extractH fuel h p ∧ reachH fuel h2 p = reachH fuel h p := by
  intro fuel
  induction fuel with
  | zero =>
    intro h h2 p hag
    cases p <;> exact ⟨rfl, rfl⟩
  | succ fuel ih =>
    intro h h2 p hag
    cases p with
    | none => exact ⟨rfl, rfl⟩
    | some a =>
      have ha : h2.mem a = h.mem a := hag a (by simp [reachH])
      cases hma : h.mem a with
      | none =>
        have ha2 : h2.mem a = .none := by rw [ha, hma]
        simp only [extractH, reachH, hma, ha2]
        exact ⟨trivial, trivial⟩
      | some nd =>
        have hmem : ∀ i, i ∈ reachH fuel h nd.nw ∨ i ∈ reachH fuel h nd.ne ∨
            i ∈ reachH fuel h nd.sw ∨ i ∈ reachH fuel h nd.se →
            i ∈ reachH (fuel + 1) h (.some a) := by
          intro i hi
          simp only [reachH, hma, List.mem_cons, List.mem_append]
          tauto
        have hnw := ih h h2 nd.nw (fun i hi => hag i (hmem i (Or.inl hi)))
        have hne := ih h h2 nd.ne (fun i hi => hag i (hmem i (Or.inr (Or.inl hi))))
        have hsw := ih h h2 nd.sw (fun i hi => hag i (hmem i (Or.inr (Or.inr (Or.inl hi)))))
        have hse := ih h h2 nd.se (fun i hi => hag i (hmem i (Or.inr (Or.inr (Or.inr hi)))))
        constructor
        · simp only [extractH, hma, ha, hnw.1, hne.1, hsw.1, hse.1]
        · simp only [reachH, hma, ha, hnw.2, hne.2, hsw.2, hse.2]

/-- A heap evolution that only deletes nodes or nulls out child fields (what
PruneNode and ClearSubtree do), never allocating or rewriting rectangles. -/
def ShrinkMod (h h2 : Heap) : Prop :=
  h2.next = h.next ∧ ∀ i, h2.mem i = h.mem i ∨ h2.mem i = .none ∨
    ∃ nd : HNode, h.mem i = .some nd ∧
      h2.mem i = .some ⟨nd.upLeft, nd.lowRight, nd.avg, .none, .none, .none, .none⟩

theorem ShrinkMod.refl (h : Heap) : ShrinkMod h h :=
  ⟨rfl, fun _ => Or.inl rfl⟩

theorem ShrinkMod.trans {h1 h2 h3 : Heap} (a : ShrinkMod h1 h2) (b : ShrinkMod h2 h3) :
    ShrinkMod h1 h3 := by
  obtain ⟨an, am⟩ := a
  obtain ⟨bn, bm⟩ := b
  refine ⟨by rw [bn, an], ?_⟩
  intro i
  rcases bm i with hb | hb | ⟨nd, hb1, hb2⟩
  · rw [hb]
    exact am i
  · exact Or.inr (Or.inl hb)
  · rcases am i with ha | ha | ⟨nd2, ha1, ha2⟩
    · rw [ha] at hb1
      exact Or.inr (Or.inr ⟨nd, hb1, hb2⟩)
    · rw [ha] at hb1
      exact absurd hb1 (by simp)
    · rw [ha2] at hb1
      injection hb1 with h0
      subst h0
      exact Or.inr (Or.inr ⟨nd2, ha1, hb2⟩)

theorem clearSubH_shrink : ∀ fuel : Nat, ∀ h : Heap, ∀ p : Option Nat,
    ShrinkMod h (clearSubH fuel h p) := by
  intro fuel
  induction fuel with
  | zero =>
    intro h p
    cases p <;> exact ShrinkMod.refl _
  | succ fuel ih =>
    intro h p
    cases p with
    | none => exact ShrinkMod.refl _
    | some a =>
      cases hma : h.mem a with
      | none =>
        simp only [clearSubH, hma]
        exact ShrinkMod.refl _
      | some nd =>
        simp only [clearSubH, hma]
        refine ShrinkMod.trans (ShrinkMod.trans (ShrinkMod.trans (ShrinkMod.trans
          (ih h nd.nw) (ih _ nd.ne)) (ih _ nd.sw)) (ih _ nd.se)) ?_
        refine ⟨rfl, ?_⟩
        intro i
        by_cases hia : i = a
        · subst hia
          exact Or.inr (Or.inl (by simp))
        · exact Or.inl (by simp [hia])

theorem reach_subset_of_shrink {h h2 : Heap} (hs : ShrinkMod h h2) :
    ∀ fuel : Nat, ∀ p : Option Nat, ∀ i, i ∈ reachH fuel h2 p → i ∈ reachH fuel h p := by
  intro fuel
  induction fuel with
  | zero =>
    intro p i hi
    cases p <;> simp [reachH] at hi
  | succ fuel ih =>
    intro p i hi
    cases p with
    | none => simp [reachH] at hi
    | some a =>
      simp only [reachH, List.mem_cons] at hi ⊢
      rcases hi with rfl | hi
      · exact Or.inl rfl
      · rcases hs.2 a with he | he | ⟨nd, he1, he2⟩
        · rw [he] at hi
          cases hma : h.mem a with
          | none =>
            rw [hma] at hi
            simp at hi
          | some nd =>
            rw [hma] at hi
            simp only [List.mem_append] at hi
            refine Or.inr ?_
            simp only [List.mem_append]
            rcases hi with ((hA | hB) | hC) | hD
            · exact Or.inl (Or.inl (Or.inl (ih nd.nw i hA)))
            · exact Or.inl (Or.inl (Or.inr (ih nd.ne i hB)))
            · exact Or.inl (Or.inr (ih nd.sw i hC))
            · exact Or.inr (ih nd.se i hD)
        · rw [he] at hi
          simp at hi
        · rw [he2] at hi
          simp [reachH] at hi

theorem clearSubH_frame : ∀ fuel : Nat, ∀ h : Heap, ∀ p : Option Nat, ∀ i,
    i ∉ reachH fuel h p → (clearSubH fuel h p).mem i = h.mem i := by
  intro fuel
  induction fuel with
  | zero =>
    intro h p i hi
    cases p <;> rfl
  | succ fuel ih =>
    intro h p i hi
    cases p with
    | none => rfl
    | some a =>
      simp only [reachH, List.mem_cons] at hi
      push_neg at hi
      obtain ⟨hia, hrest⟩ := hi
      cases hma : h.mem a with
      | none => simp only [clearSubH, hma]
      | some nd =>
        rw [hma] at hrest
        simp only [List.mem_append] at hrest
        push_neg at hrest
        obtain ⟨⟨⟨hnw, hne⟩, hsw⟩, hse⟩ := hrest
        simp only [clearSubH, hma]
        have s1 := clearSubH_shrink fuel h nd.nw
        set h1 := clearSubH fuel h nd.nw with hh1
        have s2 := clearSubH_shrink fuel h1 nd.ne
        set h2 := clearSubH fuel h1 nd.ne with hh2
        have s3 := clearSubH_shrink fuel h2 nd.sw
        set h3 := clearSubH fuel h2 nd.sw with hh3
        have e1 : h1.mem i = h.mem i := ih h nd.nw i (fun hmem => hnw hmem)
        have e2 : h2.mem i = h1.mem i := ih h1 nd.ne i
          (fun hmem => hne (reach_subset_of_shrink s1 fuel nd.ne i hmem))
        have e3 : h3.mem i = h2.mem i := ih h2 nd.sw i
          (fun hmem => hsw (reach_subset_of_shrink (ShrinkMod.trans s1 s2) fuel
            nd.sw i hmem))
        have e4 : (clearSubH fuel h3 nd.se).mem i = h3.mem i := ih h3 nd.se i
          (fun hmem => hse (reach_subset_of_shrink
            (ShrinkMod.trans (ShrinkMod.trans s1 s2) s3) fuel nd.se i hmem))
        simp only [if_neg hia]
        rw [e4, e3, e2, e1]

theorem pruneH_shrink : ∀ fuel : Nat, ∀ h : Heap, ∀ p : Option Nat, ∀ tol : Nat,
    ShrinkMod h (pruneH fuel h p tol) := by
  intro fuel
  induction fuel with
  | zero =>
    intro h p tol
    cases p <;> exact ShrinkMod.refl _
  | succ fuel ih =>
    intro h p tol
    cases p with
    | none => exact ShrinkMod.refl _
    | some a =>
      cases hma : h.mem a with
      | none =>
        simp only [pruneH, hma]
        exact ShrinkMod.refl _
      | some nd =>
        simp only [pruneH, hma]
        by_cases hleaf : hIsLeaf nd = true
        · rw [if_pos hleaf]
          exact ShrinkMod.refl _
        · rw [if_neg hleaf]
          have s1 : ShrinkMod h (pruneH fuel h nd.nw tol) := ih h nd.nw tol
          set h1 := pruneH fuel h nd.nw tol with hh1
          have s2 := ih h1 nd.ne tol
          set h2 := pruneH fuel h1 nd.ne tol with hh2
          have s3 := ih h2 nd.sw tol
          set h3 := pruneH fuel h2 nd.sw tol with hh3
          have s4 := ih h3 nd.se tol
          set h4 := pruneH fuel h3 nd.se tol with hh4
          have sh4 : ShrinkMod h h4 :=
            ShrinkMod.trans (ShrinkMod.trans (ShrinkMod.trans s1 s2) s3) s4
          cases hm4 : h4.mem a with
          | none => simp only [hm4]; exact sh4
          | some nd2 =>
            simp only [hm4]
            by_cases hcp : canPruneH (fuel + 1) h4 (.some a) nd2.avg tol = true
            · simp only [hcp, if_true]
              have g1s := clearSubH_shrink fuel h4 nd2.nw
              set g1 := clearSubH fuel h4 nd2.nw with hg1
              have g2s := clearSubH_shrink fuel g1 nd2.ne
              set g2 := clearSubH fuel g1 nd2.ne with hg2
              have g3s := clearSubH_shrink fuel g2 nd2.sw
              set g3 := clearSubH fuel g2 nd2.sw with hg3
              have g4s := clearSubH_shrink fuel g3 nd2.se
              set g4 := clearSubH fuel g3 nd2.se with hg4
              have shg : ShrinkMod h g4 :=
                ShrinkMod.trans sh4 (ShrinkMod.trans (ShrinkMod.trans
                  (ShrinkMod.trans g1s g2s) g3s) g4s)
              have hrect : nd2.upLeft = nd.upLeft ∧ nd2.lowRight = nd.lowRight ∧
                  nd2.avg = nd.avg := by
                rcases sh4.2 a with he | he | ⟨nd3, he1, he2⟩
                · rw [hm4, hma] at he
                  injection he with h0
                  rw [h0]
                  exact ⟨rfl, rfl, rfl⟩
                · rw [hm4] at he
                  exact absurd he (by simp)
                · rw [hma] at he1
                  injection he1 with h0
                  rw [hm4] at he2
                  injection he2 with h1
                  rw [h1, ← h0]
                  exact ⟨rfl, rfl, rfl⟩
              refine ⟨shg.1, ?_⟩
              intro i
              by_cases hia : i = a
              · subst hia
                refine Or.inr (Or.inr ⟨nd, hma, ?_⟩)
                simp only [if_pos rfl, hrect.1, hrect.2.1, hrect.2.2]
                simp
              · simp only [if_neg hia]
                exact shg.2 i
            · simp only [hcp, if_false]
              exact sh4

theorem pruneH_frame : ∀ fuel : Nat, ∀ h : Heap, ∀ p : Option Nat, ∀ tol : Nat, ∀ i,
    i ∉ reachH fuel h p → (pruneH fuel h p tol).mem i = h.mem i := by
  intro fuel
  induction fuel with
  | zero =>
    intro h p tol i hi
    cases p <;> rfl
  | succ fuel ih =>
    intro h p tol i hi
    cases p with
    | none => rfl
    | some a =>
      simp only [reachH, List.mem_cons] at hi
      push_neg at hi
      obtain ⟨hia, hrest⟩ := hi
      cases hma : h.mem a with
      | none => simp only [pruneH, hma]
      | some nd =>
        rw [hma] at hrest
        simp only [List.mem_append] at hrest
        push_neg at hrest
        obtain ⟨⟨⟨hnw, hne⟩, hsw⟩, hse⟩ := hrest
        simp only [pruneH, hma]
        by_cases hleaf : hIsLeaf nd = true
        · rw [if_pos hleaf]
        · rw [if_neg hleaf]
          have s1 : ShrinkMod h (pruneH fuel h nd.nw tol) := pruneH_shrink fuel h nd.nw tol
          set h1 := pruneH fuel h nd.nw tol with hh1
          have s2 := pruneH_shrink fuel h1 nd.ne tol
          set h2 := pruneH fuel h1 nd.ne tol with hh2
          have s3 := pruneH_shrink fuel h2 nd.sw tol
          set h3 := pruneH fuel h2 nd.sw tol with hh3
          have s4 := pruneH_shrink fuel h3 nd.se tol
          set h4 := pruneH fuel h3 nd.se tol with hh4
          have sh4 : ShrinkMod h h4 :=
            ShrinkMod.trans (ShrinkMod.trans (ShrinkMod.trans s1 s2) s3) s4
          have e1 : h1.mem i = h.mem i := by
            rw [hh1]; exact ih h nd.nw tol i hnw
          have e2 : h2.mem i = h1.mem i := by
            rw [hh2]
            exact ih h1 nd.ne tol i
              (fun hm => hne (reach_subset_of_shrink s1 fuel nd.ne i hm))
          have e3 : h3.mem i = h2.mem i := by
            rw [hh3]
            exact ih h2 nd.sw tol i
              (fun hm => hsw (reach_subset_of_shrink (ShrinkMod.trans s1 s2) fuel nd.sw i hm))
          have e4 : h4.mem i = h3.mem i := by
            rw [hh4]
            exact ih h3 nd.se tol i
              (fun hm => hse (reach_subset_of_shrink
                (ShrinkMod.trans (ShrinkMod.trans s1 s2) s3) fuel nd.se i hm))
          cases hm4 : h4.mem a with
          | none =>
            simp only [hm4]
            rw [e4, e3, e2, e1]
          | some nd2 =>
            simp only [hm4]
            by_cases hcp : canPruneH (fuel + 1) h4 (.some a) nd2.avg tol = true
            · rw [if_pos hcp]
              have hch : (nd2.nw = nd.nw ∧ nd2.ne = nd.ne ∧ nd2.sw = nd.sw ∧
                  nd2.se = nd.se) ∨
                  (nd2.nw = .none ∧ nd2.ne = .none ∧ nd2.sw = .none ∧ nd2.se = .none) := by
                rcases sh4.2 a with he | he | ⟨nd3, he1, he2⟩
                · rw [hm4, hma] at he
                  injection he with h0
                  rw [h0]
                  exact Or.inl ⟨rfl, rfl, rfl, rfl⟩
                · rw [hm4] at he
                  exact absurd he (by simp)
                · rw [hm4] at he2
                  injection he2 with h0
                  rw [h0]
                  exact Or.inr ⟨rfl, rfl, rfl, rfl⟩
              have hnot : ∀ g : Heap, ShrinkMod h g →
                  i ∉ reachH fuel g nd2.nw ∧ i ∉ reachH fuel g nd2.ne ∧
                  i ∉ reachH fuel g nd2.sw ∧ i ∉ reachH fuel g nd2.se := by
                intro g hg
                rcases hch with ⟨c1, c2, c3, c4⟩ | ⟨c1, c2, c3, c4⟩
                · rw [c1, c2, c3, c4]
                  exact ⟨fun hm => hnw (reach_subset_of_shrink hg fuel nd.nw i hm),
                    fun hm => hne (reach_subset_of_shrink hg fuel nd.ne i hm),
                    fun hm => hsw (reach_subset_of_shrink hg fuel nd.sw i hm),
                    fun hm => hse (reach_subset_of_shrink hg fuel nd.se i hm)⟩
                · rw [c1, c2, c3, c4]
                  simp [reachH]
              have g1s := clearSubH_shrink fuel h4 nd2.nw
              set g1 := clearSubH fuel h4 nd2.nw with hg1
              have g2s := clearSubH_shrink fuel g1 nd2.ne
              set g2 := clearSubH fuel g1 nd2.ne with hg2
              have g3s := clearSubH_shrink fuel g2 nd2.sw
              set g3 := clearSubH fuel g2 nd2.sw with hg3
              have g4s := clearSubH_shrink fuel g3 nd2.se
              set g4 := clearSubH fuel g3 nd2.se with hg4
              have f1 : g1.mem i = h4.mem i := by
                rw [hg1]; exact clearSubH_frame fuel h4 nd2.nw i (hnot h4 sh4).1
              have f2 : g2.mem i = g1.mem i := by
                rw [hg2]
                exact clearSubH_frame fuel g1 nd2.ne i
                  (hnot g1 (ShrinkMod.trans sh4 g1s)).2.1
              have f3 : g3.mem i = g2.mem i := by
                rw [hg3]
                exact clearSubH_frame fuel g2 nd2.sw i
                  (hnot g2 (ShrinkMod.trans sh4 (ShrinkMod.trans g1s g2s))).2.2.1
              have f4 : g4.mem i = g3.mem i := by
                rw [hg4]
                exact clearSubH_frame fuel g3 nd2.se i
                  (hnot g3 (ShrinkMod.trans sh4 (ShrinkMod.trans
                    (ShrinkMod.trans g1s g2s) g3s))).2.2.2
              simp only [if_neg hia]
              rw [f4, f3, f2, f1, e4, e3, e2, e1]
            · rw [if_neg hcp]
              rw [e4, e3, e2, e1]

/-- A heap region invariant for CopyNode: every record stored at or above
`base` has child pointers that are null or again at or above `base`.  It holds
of the fresh region the copy allocates into. -/
def HiClosed (base : Nat) (h : Heap) : Prop :=
  ∀ a, base ≤ a → ∀ nd, h.mem a = .some nd →
    (∀ j, nd.nw = .some j → base ≤ j) ∧ (∀ j, nd.ne = .some j → base ≤ j) ∧
    (∀ j, nd.sw = .some j → base ≤ j) ∧ (∀ j, nd.se = .some j → base ≤ j)

theorem copy_spec (base : Nat) : ∀ fuel : Nat, ∀ h : Heap, ∀ p : Option Nat,
    base ≤ h.next → HiClosed base h →
    h.next ≤ (copyNodeH fuel h p).1.next ∧
    (∀ i, i < h.next → (copyNodeH fuel h p).1.mem i = h.mem i) ∧
    (∀ j, (copyNodeH fuel h p).2 = .some j → base ≤ j) ∧
    HiClosed base (copyNodeH fuel h p).1 := by
  intro fuel
  induction fuel with
  | zero =>
    intro h p hb hic
    cases p with
    | none => exact ⟨le_rfl, fun _ _ => rfl, fun j hj => Option.noConfusion hj, hic⟩
    | some a => exact ⟨le_rfl, fun _ _ => rfl, fun j hj => Option.noConfusion hj, hic⟩
  | succ fuel ih =>
    intro h p hb hic
    cases p with
    | none => exact ⟨le_rfl, fun _ _ => rfl, fun j hj => Option.noConfusion hj, hic⟩
    | some a =>
      cases hma : h.mem a with
      | none =>
        simp only [copyNodeH, hma]
        exact ⟨by simp, by simp, by simp, hic⟩
      | some nd =>
        simp only [copyNodeH, hma]
        set h1 : Heap := ⟨fun i => if i = h.next then
            .some ⟨nd.upLeft, nd.lowRight, nd.avg, .none, .none, .none, .none⟩
          else h.mem i, h.next + 1⟩ with hh1
        have hn1 : h1.next = h.next + 1 := rfl
        have hm1 : ∀ i, i < h.next → h1.mem i = h.mem i := by
          intro i hi
          exact if_neg (by omega)
        have hic1 : HiClosed base h1 := by
          intro x hx nd' hmem
          by_cases hxe : x = h.next
          · have hx1 : h1.mem x = .some ⟨nd.upLeft, nd.lowRight, nd.avg,
                .none, .none, .none, .none⟩ := if_pos hxe
            rw [hx1] at hmem
            injection hmem with he
            refine ⟨?_, ?_, ?_, ?_⟩ <;> intro j hj <;> rw [← he] at hj <;>
              exact Option.noConfusion hj
          · have hx1 : h1.mem x = h.mem x := if_neg hxe
            rw [hx1] at hmem
            exact hic x hx nd' hmem
        have hb1 : base ≤ h1.next := by rw [hn1]; omega
        have cs1 := ih h1 nd.nw hb1 hic1
        set r1 := copyNodeH fuel h1 nd.nw with hr1
        have cs2 := ih r1.1 nd.ne (le_trans hb1 cs1.1) cs1.2.2.2
        set r2 := copyNodeH fuel r1.1 nd.ne with hr2
        have cs3 := ih r2.1 nd.sw (le_trans (le_trans hb1 cs1.1) cs2.1) cs2.2.2.2
        set r3 := copyNodeH fuel r2.1 nd.sw with hr3
        have cs4 := ih r3.1 nd.se
          (le_trans (le_trans (le_trans hb1 cs1.1) cs2.1) cs3.1) cs3.2.2.2
        set r4 := copyNodeH fuel r3.1 nd.se with hr4
        have t0 : h.next < h1.next := by rw [hn1]; omega
        have t1 : h1.next ≤ r1.1.next := cs1.1
        have t2 : r1.1.next ≤ r2.1.next := cs2.1
        have t3 : r2.1.next ≤ r3.1.next := cs3.1
        have t4 : r3.1.next ≤ r4.1.next := cs4.1
        refine ⟨?_, ?_, ?_, ?_⟩
        · show h.next ≤ r4.1.next
          omega
        · intro i hi
          show (if i = h.next then
              Option.some ⟨nd.upLeft, nd.lowRight, nd.avg, r1.2, r2.2, r3.2, r4.2⟩
            else r4.1.mem i) = h.mem i
          rw [if_neg (show ¬ i = h.next by omega)]
          have e4 : r4.1.mem i = r3.1.mem i := cs4.2.1 i (by omega)
          have e3 : r3.1.mem i = r2.1.mem i := cs3.2.1 i (by omega)
          have e2 : r2.1.mem i = r1.1.mem i := cs2.2.1 i (by omega)
          have e1 : r1.1.mem i = h1.mem i := cs1.2.1 i (by omega)
          rw [e4, e3, e2, e1]
          exact hm1 i hi
        · intro j hj
          have hje : h.next = j := by injection hj
          rw [← hje]
          exact hb
        · intro x hx nd' hmem
          have hmem' : (if x = h.next then
              Option.some (⟨nd.upLeft, nd.lowRight, nd.avg,
                r1.2, r2.2, r3.2, r4.2⟩ : HNode)
            else r4.1.mem x) = Option.some nd' := hmem
          by_cases hxe : x = h.next
          · rw [if_pos hxe] at hmem'
            injection hmem' with he
            refine ⟨?_, ?_, ?_, ?_⟩ <;> intro j hj <;> rw [← he] at hj
            · exact cs1.2.2.1 j hj
            · exact cs2.2.2.1 j hj
            · exact cs3.2.2.1 j hj
            · exact cs4.2.2.1 j hj
          · rw [if_neg hxe] at hmem'
            exact cs4.2.2.2 x hx nd' hmem'

theorem reach_hi (base : Nat) : ∀ fuel : Nat, ∀ h : Heap, HiClosed base h →
    ∀ p : Option Nat, (∀ j, p = .some j → base ≤ j) →
    ∀ i, i ∈ reachH fuel h p → base ≤ i := by
  intro fuel
  induction fuel with
  | zero =>
    intro h hic p hp i hi
    cases p <;> simp [reachH] at hi
  | succ fuel ih =>
    intro h hic p hp i hi
    cases p with
    | none => simp [reachH] at hi
    | some a =>
      have hba : base ≤ a := hp a rfl
      simp only [reachH, List.mem_cons] at hi
      rcases hi with rfl | hi
      · exact hba
      · cases hma : h.mem a with
        | none =>
          rw [hma] at hi
          simp at hi
        | some nd =>
          rw [hma] at hi
          simp only [List.mem_append] at hi
          obtain ⟨c1, c2, c3, c4⟩ := hic a hba nd hma
          rcases hi with ((hA | hB) | hC) | hD
          · exact ih h hic nd.nw c1 i hA
          · exact ih h hic nd.ne c2 i hB
          · exact ih h hic nd.sw c3 i hC
          · exact ih h hic nd.se c4 i hD

/-- C8: for every tree (rooted at `p` in heap `h`, with the allocator sound:
all reachable addresses are allocated below `next` and nothing lives at or
above `next`), deep-copying it with CopyNode and then mutating the copy by
pruning it leaves the original tree's extracted structure — and hence its
Render output — unchanged, and the two trees share no heap nodes. -/
theorem C8_copy_isolation (fuel : Nat) (h : Heap) (p : Option Nat) (tol : Nat)
    (hreach : ∀ i ∈ reachH fuel h p, i < h.next)
    (hal : ∀ i, h.next ≤ i → h.mem i = .none) :
    extractH fuel (pruneH fuel (copyNodeH fuel h p).1 (copyNodeH fuel h p).2 tol) p
      = extractH fuel h p ∧
    (∀ scale c, renderO (extractH fuel (pruneH fuel (copyNodeH fuel h p).1
        (copyNodeH fuel h p).2 tol) p) scale c
      = renderO (extractH fuel h p) scale c) ∧
    (∀ i ∈ reachH fuel h p, i ∉ reachH fuel (copyNodeH fuel h p).1 (copyNodeH fuel h p).2) := by
  have hic : HiClosed h.next h := by
    intro x hx nd hmem
    rw [hal x hx] at hmem
    exact Option.noConfusion hmem
  have cs := copy_spec h.next fuel h p le_rfl hic
  set r := copyNodeH fuel h p with hr
  have hcopyhi : ∀ i ∈ reachH fuel r.1 r.2, h.next ≤ i :=
    reach_hi h.next fuel r.1 cs.2.2.2 r.2 cs.2.2.1
  have hdisj : ∀ i ∈ reachH fuel h p, i ∉ reachH fuel r.1 r.2 := by
    intro i hi hmem2
    have hlt := hreach i hi
    have hge := hcopyhi i hmem2
    omega
  have ef1 := extract_frame fuel h r.1 p (fun i hi => cs.2.1 i (hreach i hi))
  have hframe2 : ∀ i ∈ reachH fuel r.1 p, (pruneH fuel r.1 r.2 tol).mem i = r.1.mem i := by
    intro i hi
    apply pruneH_frame
    rw [ef1.2] at hi
    exact hdisj i hi
  have ef2 := extract_frame fuel r.1 (pruneH fuel r.1 r.2 tol) p hframe2
  refine ⟨?_, ?_, hdisj⟩
  · rw [ef2.1, ef1.1]
  · intro scale c
    rw [ef2.1, ef1.1]

/-- A concrete three-node heap: an internal root at address 0 with NW and NE
leaf children at addresses 1 and 2, allocator at 3. -/
def wheapMem : Nat → Option HNode := fun i =>
  if i = 0 then .some ⟨(0, 0), (1, 1), gray 10, .some 1, .some 2, .none, .none⟩
  else if i = 1 then .some ⟨(0, 0), (0, 1), gray 10, .none, .none, .none, .none⟩
  else if i = 2 then .some ⟨(1, 0), (1, 1), gray 20, .none, .none, .none, .none⟩
  else .none

def wheap : Heap := ⟨wheapMem, 3⟩

theorem C8_copy_isolation_witness :
    extractH 3 (pruneH 3 (copyNodeH 3 wheap (.some 0)).1
        (copyNodeH 3 wheap (.some 0)).2 100) (.some 0)
      = extractH 3 wheap (.some 0) ∧
    (0 : Nat) ∉ reachH 3 (copyNodeH 3 wheap (.some 0)).1 (copyNodeH 3 wheap (.some 0)).2 := by
  have hmain := C8_copy_isolation 3 wheap (.some 0) 100 (by decide)
    (by
      intro i hi
      have h3 : 3 ≤ i := hi
      show wheapMem i = .none
      simp only [wheapMem]
      rw [if_neg (by omega), if_neg (by omega), if_neg (by omega)])
  exact ⟨hmain.1, hmain.2.2 0 (by decide)⟩
